import Mathlib

/-!
# Verification of the `singleflight` and `lru` packages

This development gives a shallow embedding of the two components of the
repository and proves the specification claims about them.

* The `lru` package's `Cache` is modelled as an immutable record holding the
  recency list `ll` (front = most recently used, mirroring Go's
  `container/list` with `PushFront`/`MoveToFront`/`Back`), the lookup map
  `cache` as an association list from key to element identity, and a lazy
  initialisation flag standing for the Go nil-map check.  Go's
  `*list.Element` pointers are modelled by stable numeric identities (`id`);
  the map stores the id of the element it references.  The optional
  `OnEvicted` callback is modelled by a boolean `onEvicted` (whether the
  field is non-nil) and each mutating operation returns the list of
  `(key, value)` pairs the callback was invoked with during that call.
* The `singleflight` package's `Group.Do` is modelled as a small-step
  interleaving semantics: each caller is a thread walking through the atomic
  steps of `Do` (the lock-protected check/register section, the `fn()` call,
  `wg.Done()`, the lock-protected `delete`, and the final return), and a
  schedule is a list of thread indices.
-/

namespace LRU

/-- One element of the recency list: Go's `entry` stored in a `list.Element`,
together with the element's identity (standing for the pointer). -/
structure Entry (K V : Type) where
  id : Nat
  key : K
  value : V
  deriving DecidableEq, Repr

variable {K V : Type} [DecidableEq K]

/-- Map lookup `c.cache[key]` on the association list: first binding wins. -/
def lookupKey (k : K) : List (K × Nat) → Option Nat
  | [] => none
  | (k', id) :: m => if k = k' then some id else lookupKey k m

/-- Map deletion `delete(c.cache, key)`: removes every binding for `k`. -/
def eraseKey (k : K) : List (K × Nat) → List (K × Nat)
  | [] => []
  | (k', id) :: m => if k = k' then eraseKey k m else (k', id) :: eraseKey k m

/-- Map assignment `c.cache[key] = ele`. -/
def insertKey (k : K) (id : Nat) (m : List (K × Nat)) : List (K × Nat) :=
  (k, id) :: eraseKey k m

/-- Find the list element with the given identity (dereferencing a
`*list.Element` stored in the map). -/
def findId (id : Nat) : List (Entry K V) → Option (Entry K V)
  | [] => none
  | e :: l => if e.id = id then some e else findId id l

/-- `list.Remove` of the element with the given identity. -/
def removeId (id : Nat) : List (Entry K V) → List (Entry K V)
  | [] => []
  | e :: l => if e.id = id then l else e :: removeId id l

/-- `list.MoveToFront` of the element with the given identity.  When the
identity is not in the list (Go: `e.list != l`) the move is a no-op. -/
def moveToFront (id : Nat) (l : List (Entry K V)) : List (Entry K V) :=
  match findId id l with
  | some e => e :: removeId id l
  | none => l

/-- `ee.Value.(*entry).value = value`: overwrite the value stored in the
element with the given identity. -/
def updValue (id : Nat) (v : V) : List (Entry K V) → List (Entry K V)
  | [] => []
  | e :: l => if e.id = id then ⟨e.id, e.key, v⟩ :: l else e :: updValue id v l

/-- `c.ll.Back()`: the last element of the recency list. -/
def llBack : List (Entry K V) → Option (Entry K V)
  | [] => none
  | [e] => some e
  | _ :: e :: l => llBack (e :: l)

/-- The `lru.Cache` structure.  `init = false` is the zero-value state in
which the Go fields `ll` and `cache` are nil; `New` and the lazy
initialisation in `Add` set it to true.  `onEvicted` records whether the
`OnEvicted` callback field is non-nil. -/
structure Cache (K V : Type) where
  maxEntries : Nat
  onEvicted : Bool
  ll : List (Entry K V)
  cache : List (K × Nat)
  nextId : Nat
  init : Bool
  deriving DecidableEq, Repr

/-- `lru.New`. -/
def New (K V : Type) (maxEntries : Nat) : Cache K V :=
  { maxEntries := maxEntries, onEvicted := false, ll := [], cache := [],
    nextId := 0, init := true }

/-- The zero value `lru.Cache{}`: nil map and nil list. -/
def zeroCache (K V : Type) : Cache K V :=
  { maxEntries := 0, onEvicted := false, ll := [], cache := [],
    nextId := 0, init := false }

/-- `Cache.removeElement`: unlink the element from the list, delete its key
from the map, and invoke `OnEvicted` (when configured) with the removed
key/value.  The second component is the list of callback invocations. -/
def removeElement (c : Cache K V) (e : Entry K V) : Cache K V × List (K × V) :=
  ({ c with ll := removeId e.id c.ll, cache := eraseKey e.key c.cache },
   if c.onEvicted then [(e.key, e.value)] else [])

/-- `Cache.RemoveOldest`. -/
def RemoveOldest (c : Cache K V) : Cache K V × List (K × V) :=
  if c.init = false then (c, [])
  else
    match llBack c.ll with
    | some e => removeElement c e
    | none => (c, [])

/-- `Cache.Add`. -/
def Add (c : Cache K V) (key : K) (value : V) : Cache K V × List (K × V) :=
  let c := if c.init then c else { c with init := true }
  match lookupKey key c.cache with
  | some id =>
      ({ c with ll := updValue id value (moveToFront id c.ll) }, [])
  | none =>
      let c := { c with
        ll := ⟨c.nextId, key, value⟩ :: c.ll,
        cache := insertKey key c.nextId c.cache,
        nextId := c.nextId + 1 }
      if c.maxEntries ≠ 0 ∧ c.ll.length > c.maxEntries then RemoveOldest c
      else (c, [])

/-- `Cache.Get`.  On a hit the element is moved to the front and its value
returned; `none` is the Go `(nil, false)` miss result.  (The `findId ... =
none` branch is unreachable for consistent caches — the map in Go stores the
element itself, and the consistency invariant proved below guarantees the
referenced element is live.) -/
def Get (c : Cache K V) (key : K) : Cache K V × Option V :=
  if c.init = false then (c, none)
  else
    match lookupKey key c.cache with
    | some id =>
        match findId id c.ll with
        | some e => ({ c with ll := moveToFront id c.ll }, some e.value)
        | none => (c, none)
    | none => (c, none)

/-- `Cache.Remove`. -/
def Remove (c : Cache K V) (key : K) : Cache K V × List (K × V) :=
  if c.init = false then (c, [])
  else
    match lookupKey key c.cache with
    | some id =>
        match findId id c.ll with
        | some e => removeElement c e
        | none => (c, [])
    | none => (c, [])

/-- `Cache.Len`. -/
def Len (c : Cache K V) : Nat :=
  if c.init = false then 0 else c.ll.length

/-- Mutual consistency of the lookup map and the recency list:
an uninitialised cache is empty; element identities and keys are not
duplicated in the list, keys are not duplicated in the map; every map
binding references exactly one live element (unique by `Nodup` of the
identities) whose key is the bound key; every list element's key is bound in
the map to that element's identity; map size equals list length; and all
identities are below the allocation counter. -/
def Consistent (c : Cache K V) : Prop :=
  (c.init = false → c.ll = [] ∧ c.cache = []) ∧
  (c.ll.map Entry.id).Nodup ∧
  (c.ll.map Entry.key).Nodup ∧
  (c.cache.map Prod.fst).Nodup ∧
  (∀ p ∈ c.cache, ∃ e ∈ c.ll, e.id = p.2 ∧ e.key = p.1) ∧
  (∀ e ∈ c.ll, (e.key, e.id) ∈ c.cache) ∧
  c.cache.length = c.ll.length ∧
  (∀ e ∈ c.ll, e.id < c.nextId)

/-- One public cache operation (for operation traces). -/
inductive COp (K V : Type) where
  | add (k : K) (v : V)
  | get (k : K)
  | remove (k : K)
  | removeOldest

/-- Execute one operation, returning the new cache (callback logs are
dropped, they are irrelevant to the structural invariant). -/
def execOp (c : Cache K V) : COp K V → Cache K V
  | .add k v => (Add c k v).1
  | .get k => (Get c k).1
  | .remove k => (Remove c k).1
  | .removeOldest => (RemoveOldest c).1

/-- Execute a trace of operations from left to right. -/
def execOps (c : Cache K V) : List (COp K V) → Cache K V
  | [] => c
  | op :: ops => execOps (execOp c op) ops

/-- Erase the first occurrence of a key from a key list. -/
def eraseKList (k : K) : List K → List K
  | [] => []
  | k' :: ks => if k' = k then ks else k' :: eraseKList k ks

/-- Spec-side recency abstraction, written from the specification's words:
the cache contents are a key list in descending recency of access; `add`
and a `get` hit move the key to the front; a fresh `add` pushes the key to
the front, evicting the last key when a nonzero capacity is exceeded;
`remove` deletes the key; `removeOldest` drops the last key.  This is the
companion definition for the refinement claim about recency order, to be
compared with the key order of `Cache.ll`. -/
def specStep (max : Nat) (ks : List K) : COp K V → List K
  | .add k _ =>
      if k ∈ ks then k :: eraseKList k ks
      else if max ≠ 0 ∧ (k :: ks).length > max then (k :: ks).dropLast
      else k :: ks
  | .get k => if k ∈ ks then k :: eraseKList k ks else ks
  | .remove k => eraseKList k ks
  | .removeOldest => ks.dropLast

/-- Spec-side recency order after a trace of operations. -/
def specRecency (max : Nat) : List K → List (COp K V) → List K
  | ks, [] => ks
  | ks, op :: ops => specRecency max (specStep max ks op) ops

end LRU

/-- Replace the element at position `n` of a list (identity if out of
range). -/
def modifyAt {α : Type} (n : Nat) (f : α → α) : List α → List α
  | [] => []
  | a :: l =>
      match n with
      | 0 => f a :: l
      | n + 1 => a :: modifyAt n f l

/-- Set the element at position `n` of a list (identity if out of range). -/
def setAt {α : Type} (n : Nat) (a : α) : List α → List α :=
  modifyAt n (fun _ => a)

namespace SF

/-- Program counter of the thread that registered a new `call` and runs the
function: about to call `fn()`, about to call `wg.Done()`, about to
`delete(g.m, key)` under the lock, or about to read and return
`c.val, c.err`. -/
inductive RSub where
  | toExec | toDone | toDelete | toReturn
  deriving DecidableEq, Repr

/-- Phase of one caller of `Group.Do`: not yet entered; running the call it
registered; blocked in `c.wg.Wait()` on call `cid`; or returned with result
`r`. -/
inductive Phase (ρ : Type) where
  | start
  | run (cid : Nat) (sub : RSub)
  | wait (cid : Nat)
  | ret (r : ρ)
  deriving DecidableEq, Repr

/-- A `call` record: whether `wg.Done()` has been called, and the stored
`(val, err)` result (modelled as one value of type `ρ`). -/
structure CallRec (ρ : Type) where
  done : Bool
  res : Option ρ
  deriving DecidableEq, Repr

/-- Global state of a `Group` with callers all using one fixed key:
`mEntry` is `g.m[key]` (the identity of the registered call record, if
present), `calls` is the arena of all call records ever created (identity =
index), `fnCount` counts executions of the wrapped function, and `threads`
holds each caller's phase. -/
structure GState (ρ : Type) where
  mEntry : Option Nat
  calls : List (CallRec ρ)
  fnCount : Nat
  threads : List (Phase ρ)
  deriving DecidableEq, Repr

/-- Whether a phase is the not-yet-entered phase. -/
def Phase.isStart {ρ : Type} : Phase ρ → Bool
  | .start => true
  | _ => false

/-- One atomic step of thread `t` in `Group.Do`.  `fnRes j` is the
`(value, error)` pair produced by the `j`-th execution of the wrapped
function.  The steps follow the source: the lock-protected
check-or-register section is one atomic step (the mutex is held
throughout); `c.val, c.err = fn()` is one step; `c.wg.Done()` is one step;
the lock-protected `delete(g.m, key)` is one step; the final read of
`c.val, c.err` is one step.  A waiter's step is enabled only once the
barrier has been released (`done = true`).  Threads that have returned, and
ill-formed configurations, stutter. -/
def step {ρ : Type} (fnRes : Nat → ρ) (s : GState ρ) (t : Nat) : GState ρ :=
  match s.threads[t]? with
  | none => s
  | some ph =>
    match ph with
    | .start =>
        match s.mEntry with
        | some cid => { s with threads := setAt t (Phase.wait cid) s.threads }
        | none =>
            let cid := s.calls.length
            { s with
              calls := s.calls ++ [⟨false, none⟩],
              mEntry := some cid,
              threads := setAt t (Phase.run cid .toExec) s.threads }
    | .run cid .toExec =>
        { s with
          calls := modifyAt cid (fun c => { c with res := some (fnRes s.fnCount) }) s.calls,
          fnCount := s.fnCount + 1,
          threads := setAt t (Phase.run cid .toDone) s.threads }
    | .run cid .toDone =>
        { s with
          calls := modifyAt cid (fun c => { c with done := true }) s.calls,
          threads := setAt t (Phase.run cid .toDelete) s.threads }
    | .run cid .toDelete =>
        { s with mEntry := none,
                 threads := setAt t (Phase.run cid .toReturn) s.threads }
    | .run cid .toReturn =>
        match s.calls[cid]? with
        | some c =>
            match c.res with
            | some r => { s with threads := setAt t (Phase.ret r) s.threads }
            | none => s
        | none => s
    | .wait cid =>
        match s.calls[cid]? with
        | some c =>
            if c.done then
              match c.res with
              | some r => { s with threads := setAt t (Phase.ret r) s.threads }
              | none => s
            else s
        | none => s
    | .ret _ => s

/-- Initial state: no call in flight for the key, `n` callers about to
invoke `Do`. -/
def sfInit (ρ : Type) (n : Nat) : GState ρ :=
  { mEntry := none, calls := [], fnCount := 0,
    threads := List.replicate n Phase.start }

/-- Run a schedule (a list of thread indices) from a state. -/
def sfRun {ρ : Type} (fnRes : Nat → ρ) (s : GState ρ) (σ : List Nat) : GState ρ :=
  σ.foldl (step fnRes) s

/-- No caller is still in its initial phase. -/
def noStart {ρ : Type} (s : GState ρ) : Bool :=
  s.threads.all (fun ph => !ph.isStart)

/-- Thread `t` is about to perform the `delete(g.m, key)` step. -/
def isDeleteStep {ρ : Type} (s : GState ρ) (t : Nat) : Bool :=
  match s.threads[t]? with
  | some (.run _ .toDelete) => true
  | _ => false

/-- A schedule is concurrent when every caller has entered `Do` (performed
its lock-protected check/register step) before any removal of the call
record from the map: this is the formal reading of "N concurrent callers
... while no call for that key is in flight at the start". -/
def okRun {ρ : Type} (fnRes : Nat → ρ) : GState ρ → List Nat → Bool
  | _, [] => true
  | s, t :: σ => (!isDeleteStep s t || noStart s) && okRun fnRes (step fnRes s t) σ

end SF


namespace SF

/-- Reachability invariant of the deduplication group (for runs from
`sfInit`): the registered call record always has a live (pre-return) runner;
distinct runner threads run distinct call records; a runner's program
counter matches the state of its call record (result stored from `toDone`
on, barrier released from `toDelete` on, record still registered in the map
until the `delete` step); a released barrier implies a stored result; every
stored result is the result of some execution of the wrapped function;
`fnCount` counts the call records whose result has been stored; every
returned value is the result of some execution; and waiters wait on
allocated records. -/
structure WF {ρ : Type} (fnRes : Nat → ρ) (s : GState ρ) : Prop where
  mEntry_live : ∀ cid : Nat, s.mEntry = some cid →
    ∃ (t : Nat) (sub : RSub), s.threads[t]? = some (Phase.run cid sub) ∧ sub ≠ RSub.toReturn
  runner_uniq : ∀ (t t' cid cid' : Nat) (sub sub' : RSub), t ≠ t' →
    s.threads[t]? = some (Phase.run cid sub) →
    s.threads[t']? = some (Phase.run cid' sub') → cid ≠ cid'
  runner_call : ∀ (t cid : Nat) (sub : RSub), s.threads[t]? = some (Phase.run cid sub) →
    ∃ c : CallRec ρ, s.calls[cid]? = some c ∧
      (sub = RSub.toExec → c.res = none ∧ c.done = false ∧ s.mEntry = some cid) ∧
      (sub = RSub.toDone → c.res.isSome = true ∧ c.done = false ∧ s.mEntry = some cid) ∧
      (sub = RSub.toDelete → c.res.isSome = true ∧ c.done = true ∧ s.mEntry = some cid) ∧
      (sub = RSub.toReturn → c.res.isSome = true ∧ c.done = true)
  call_res : ∀ (cid : Nat) (c : CallRec ρ), s.calls[cid]? = some c →
    (c.done = true → c.res.isSome = true) ∧
    (∀ r : ρ, c.res = some r → ∃ j : Nat, j < s.fnCount ∧ r = fnRes j)
  count_eq : s.fnCount = s.calls.countP (fun c => c.res.isSome)
  ret_res : ∀ (t : Nat) (r : ρ), s.threads[t]? = some (Phase.ret r) →
    ∃ j : Nat, j < s.fnCount ∧ r = fnRes j
  wait_lt : ∀ (t cid : Nat), s.threads[t]? = some (Phase.wait cid) → cid < s.calls.length

/-- Additional invariant available under a concurrent (`okRun`) schedule:
at most one call record is ever created, and once the single record has been
deleted from the map no caller is still waiting to enter. -/
structure UniqCalls {ρ : Type} (s : GState ρ) : Prop where
  calls_le : s.calls.length ≤ 1
  after_delete : s.mEntry = none → s.calls.length = 1 → noStart s = true

/-- The states reachable when only thread 0 takes steps from `sfInit ρ 2`:
the six program points of a solo execution of `Do`. -/
def SoloInv {ρ : Type} (fnRes : Nat → ρ) (s : GState ρ) : Prop :=
  s = sfInit ρ 2 ∨
  s = ⟨some 0, [⟨false, none⟩], 0, [Phase.run 0 RSub.toExec, Phase.start]⟩ ∨
  s = ⟨some 0, [⟨false, some (fnRes 0)⟩], 1, [Phase.run 0 RSub.toDone, Phase.start]⟩ ∨
  s = ⟨some 0, [⟨true, some (fnRes 0)⟩], 1, [Phase.run 0 RSub.toDelete, Phase.start]⟩ ∨
  s = ⟨none, [⟨true, some (fnRes 0)⟩], 1, [Phase.run 0 RSub.toReturn, Phase.start]⟩ ∨
  s = ⟨none, [⟨true, some (fnRes 0)⟩], 1, [Phase.ret (fnRes 0), Phase.start]⟩

/-- A concrete result function for the witnesses: the `j`-th execution of
the wrapped function yields value `100 + j` and error code `j`. -/
def exFn : Nat → Nat × Nat := fun j => (100 + j, j)

end SF

/-! ## Helper lemmas about the list primitives of the cache -/

namespace LRU

variable {K V : Type} [DecidableEq K]

theorem lookupKey_eq_none_iff {k : K} {m : List (K × Nat)} :
    lookupKey k m = none ↔ ∀ p ∈ m, p.1 ≠ k := by
  induction m with
  | nil => simp [lookupKey]
  | cons p m ih =>
      obtain ⟨k', id⟩ := p
      simp only [lookupKey, List.mem_cons, forall_eq_or_imp]
      by_cases h : k = k'
      · subst h
        simp
      · rw [if_neg h, ih]
        constructor
        · exact fun hall => ⟨fun hk => h hk.symm, hall⟩
        · exact fun hp => hp.2

theorem mem_of_lookupKey_some {k : K} {id : Nat} {m : List (K × Nat)}
    (h : lookupKey k m = some id) : (k, id) ∈ m := by
  induction m with
  | nil => simp [lookupKey] at h
  | cons p m ih =>
      obtain ⟨k', id'⟩ := p
      by_cases hk : k = k'
      · subst hk
        simp [lookupKey] at h
        subst h
        exact List.mem_cons_self _ _
      · rw [lookupKey, if_neg hk] at h
        exact List.mem_cons_of_mem _ (ih h)

theorem eraseKey_eq_filter (k : K) (m : List (K × Nat)) :
    eraseKey k m = m.filter (fun p => p.1 ≠ k) := by
  induction m with
  | nil => rfl
  | cons p m ih =>
      obtain ⟨k', id'⟩ := p
      by_cases h : k = k'
      · subst h
        simp [eraseKey, ih, List.filter_cons]
      · have h' : ((k', id') : K × Nat).1 ≠ k := fun hk => h hk.symm
        simp only [eraseKey, if_neg h, ih, List.filter_cons]
        simp [h']

theorem eraseKey_sublist (k : K) (m : List (K × Nat)) :
    (eraseKey k m).Sublist m := by
  rw [eraseKey_eq_filter]
  exact List.filter_sublist m

theorem mem_eraseKey {k : K} {p : K × Nat} {m : List (K × Nat)} :
    p ∈ eraseKey k m ↔ p ∈ m ∧ p.1 ≠ k := by
  rw [eraseKey_eq_filter]
  simp

theorem eraseKey_eq_self {k : K} {m : List (K × Nat)}
    (h : ∀ p ∈ m, p.1 ≠ k) : eraseKey k m = m := by
  rw [eraseKey_eq_filter]
  exact List.filter_eq_self.2 (by simpa using h)

theorem length_eraseKey {k : K} {id : Nat} {m : List (K × Nat)}
    (hnd : (m.map Prod.fst).Nodup) (hmem : (k, id) ∈ m) :
    (eraseKey k m).length + 1 = m.length := by
  induction m with
  | nil => cases hmem
  | cons p m ih =>
      obtain ⟨k', id'⟩ := p
      simp only [List.map_cons, List.nodup_cons] at hnd
      rcases List.mem_cons.1 hmem with heq | hmem'
      · rw [Prod.mk.injEq] at heq
        obtain ⟨h1, h2⟩ := heq
        subst h1
        subst h2
        have hm : eraseKey k m = m :=
          eraseKey_eq_self (fun p hp hk => hnd.1 (hk ▸ List.mem_map_of_mem Prod.fst hp))
        simp [eraseKey, hm]
      · have hkk : ¬(k = k') := by
          rintro rfl
          exact hnd.1 (List.mem_map_of_mem Prod.fst hmem')
        have hlen := ih hnd.2 hmem'
        simp only [eraseKey, if_neg hkk, List.length_cons]
        omega

theorem lookupKey_some_of_mem {k : K} {id : Nat} {m : List (K × Nat)}
    (hnd : (m.map Prod.fst).Nodup) (hmem : (k, id) ∈ m) :
    lookupKey k m = some id := by
  induction m with
  | nil => cases hmem
  | cons p m ih =>
      obtain ⟨k', id'⟩ := p
      simp only [List.map_cons, List.nodup_cons] at hnd
      rcases List.mem_cons.1 hmem with heq | hmem'
      · rw [Prod.mk.injEq] at heq
        obtain ⟨h1, h2⟩ := heq
        subst h1
        subst h2
        simp [lookupKey]
      · have hkk : ¬(k = k') := by
          rintro rfl
          exact hnd.1 (List.mem_map_of_mem Prod.fst hmem')
        rw [lookupKey, if_neg hkk]
        exact ih hnd.2 hmem'

end LRU

namespace LRU

variable {K V : Type} [DecidableEq K]

theorem findId_some {id : Nat} {l : List (Entry K V)} {e : Entry K V}
    (h : findId id l = some e) : e ∈ l ∧ e.id = id := by
  induction l with
  | nil => simp [findId] at h
  | cons e' l ih =>
      by_cases he : e'.id = id
      · rw [findId, if_pos he] at h
        cases h
        exact ⟨List.mem_cons_self _ _, he⟩
      · rw [findId, if_neg he] at h
        obtain ⟨hm, hid⟩ := ih h
        exact ⟨List.mem_cons_of_mem _ hm, hid⟩

theorem findId_of_mem {l : List (Entry K V)} {e : Entry K V}
    (hnd : (l.map Entry.id).Nodup) (hmem : e ∈ l) : findId e.id l = some e := by
  induction l with
  | nil => cases hmem
  | cons e' l ih =>
      simp only [List.map_cons, List.nodup_cons] at hnd
      rcases List.mem_cons.1 hmem with rfl | hmem'
      · rw [findId, if_pos rfl]
      · have hne : ¬(e'.id = e.id) := by
          intro h
          exact hnd.1 (h ▸ List.mem_map_of_mem Entry.id hmem')
        rw [findId, if_neg hne]
        exact ih hnd.2 hmem'

theorem removeId_sublist (id : Nat) (l : List (Entry K V)) :
    (removeId id l).Sublist l := by
  induction l with
  | nil => simp [removeId]
  | cons e l ih =>
      by_cases he : e.id = id
      · rw [removeId, if_pos he]
        exact List.sublist_cons_self _ _
      · rw [removeId, if_neg he]
        exact ih.cons₂ e

theorem mem_removeId_of_ne {id : Nat} {l : List (Entry K V)} {e' : Entry K V}
    (hmem : e' ∈ l) (hne : e'.id ≠ id) : e' ∈ removeId id l := by
  induction l with
  | nil => cases hmem
  | cons e l ih =>
      by_cases he : e.id = id
      · rw [removeId, if_pos he]
        rcases List.mem_cons.1 hmem with rfl | hmem'
        · exact absurd he hne
        · exact hmem'
      · rw [removeId, if_neg he]
        rcases List.mem_cons.1 hmem with rfl | hmem'
        · exact List.mem_cons_self _ _
        · exact List.mem_cons_of_mem _ (ih hmem')

theorem length_removeId {id : Nat} {l : List (Entry K V)} {e : Entry K V}
    (h : findId id l = some e) : (removeId id l).length + 1 = l.length := by
  induction l with
  | nil => simp [findId] at h
  | cons e' l ih =>
      by_cases he : e'.id = id
      · rw [removeId, if_pos he]
        rfl
      · rw [findId, if_neg he] at h
        rw [removeId, if_neg he, List.length_cons, List.length_cons,
          ← ih h]

theorem id_not_mem_removeId {id : Nat} {l : List (Entry K V)} {e : Entry K V}
    (hnd : (l.map Entry.id).Nodup) (h : findId id l = some e) :
    id ∉ (removeId id l).map Entry.id := by
  induction l with
  | nil => simp [findId] at h
  | cons e' l ih =>
      simp only [List.map_cons, List.nodup_cons] at hnd
      by_cases he : e'.id = id
      · rw [removeId, if_pos he]
        exact he ▸ hnd.1
      · rw [findId, if_neg he] at h
        rw [removeId, if_neg he, List.map_cons]
        intro hm
        rcases List.mem_cons.1 hm with heq | hm'
        · exact he heq.symm
        · exact ih hnd.2 h hm'

theorem eraseKList_sublist (k : K) (ks : List K) : (eraseKList k ks).Sublist ks := by
  induction ks with
  | nil => simp [eraseKList]
  | cons k' ks ih =>
      by_cases h : k' = k
      · rw [eraseKList, if_pos h]
        exact List.sublist_cons_self _ _
      · rw [eraseKList, if_neg h]
        exact ih.cons₂ k'

theorem eraseKList_of_not_mem {k : K} {ks : List K} (h : k ∉ ks) :
    eraseKList k ks = ks := by
  induction ks with
  | nil => rfl
  | cons k' ks ih =>
      have h1 : ¬(k' = k) := fun hk => h (hk ▸ List.mem_cons_self _ _)
      rw [eraseKList, if_neg h1, ih (fun hm => h (List.mem_cons_of_mem _ hm))]

theorem not_mem_eraseKList_self {k : K} {ks : List K} (hnd : ks.Nodup) :
    k ∉ eraseKList k ks := by
  induction ks with
  | nil => simp [eraseKList]
  | cons k' ks ih =>
      simp only [List.nodup_cons] at hnd
      by_cases h : k' = k
      · subst h
        rw [eraseKList, if_pos rfl]
        exact hnd.1
      · rw [eraseKList, if_neg h]
        intro hm
        rcases List.mem_cons.1 hm with rfl | hm'
        · exact h rfl
        · exact ih hnd.2 hm'

theorem keysOf_removeId {id : Nat} {l : List (Entry K V)} {e : Entry K V}
    (hnd : (l.map Entry.key).Nodup) (h : findId id l = some e) :
    (removeId id l).map Entry.key = eraseKList e.key (l.map Entry.key) := by
  induction l with
  | nil => simp [findId] at h
  | cons e' l ih =>
      simp only [List.map_cons, List.nodup_cons] at hnd
      by_cases he : e'.id = id
      · rw [findId, if_pos he] at h
        cases h
        rw [removeId, if_pos he, List.map_cons, eraseKList, if_pos rfl]
      · rw [findId, if_neg he] at h
        have hkey : ¬(e'.key = e.key) := by
          intro hk
          exact hnd.1 (hk ▸ List.mem_map_of_mem Entry.key (findId_some h).1)
        rw [removeId, if_neg he, List.map_cons, List.map_cons, eraseKList,
          if_neg hkey, ih hnd.2 h]

theorem llBack_eq_getLast? (l : List (Entry K V)) : llBack l = l.getLast? := by
  induction l with
  | nil => rfl
  | cons e l ih =>
      cases l with
      | nil => rfl
      | cons e' l' => rw [llBack, ih, List.getLast?_cons_cons]

theorem removeId_back {l : List (Entry K V)} {e : Entry K V}
    (hnd : (l.map Entry.id).Nodup) (h : llBack l = some e) :
    removeId e.id l = l.dropLast := by
  induction l with
  | nil => simp [llBack] at h
  | cons e' l ih =>
      cases l with
      | nil =>
          rw [llBack] at h
          cases h
          rw [removeId, if_pos rfl]
          rfl
      | cons e'' l' =>
          simp only [List.map_cons, List.nodup_cons] at hnd
          rw [llBack] at h
          have hmem : e ∈ e'' :: l' := by
            rw [llBack_eq_getLast?] at h
            exact List.mem_of_mem_getLast? h
          have hne : ¬(e'.id = e.id) := by
            intro hid
            exact hnd.1 (hid ▸ List.mem_map_of_mem Entry.id hmem)
          rw [removeId, if_neg hne, ih (by simpa using hnd.2) h,
            List.dropLast_cons_of_ne_nil (List.cons_ne_nil _ _)]

theorem map_dropLast' {α β : Type} (f : α → β) (l : List α) :
    l.dropLast.map f = (l.map f).dropLast := by
  induction l with
  | nil => rfl
  | cons a l ih =>
      cases l with
      | nil => rfl
      | cons a' l' =>
          rw [List.dropLast_cons_of_ne_nil (List.cons_ne_nil _ _), List.map_cons,
            List.map_cons, List.map_cons,
            List.dropLast_cons_of_ne_nil (List.cons_ne_nil _ _), ih, List.map_cons]

end LRU

/-! ## Preservation of `Consistent` by the cache operations -/

namespace LRU

variable {K V : Type} [DecidableEq K]

theorem mem_keys_iff_lookup {c : Cache K V} (hc : Consistent c) {k : K} :
    k ∈ c.ll.map Entry.key ↔ ∃ id, lookupKey k c.cache = some id := by
  obtain ⟨-, -, -, hck, hpe, hep, -, -⟩ := hc
  constructor
  · intro hk
    obtain ⟨e, he, rfl⟩ := List.mem_map.1 hk
    exact ⟨e.id, lookupKey_some_of_mem hck (hep e he)⟩
  · rintro ⟨id, hlk⟩
    obtain ⟨e, he, -, hkey⟩ := hpe _ (mem_of_lookupKey_some hlk)
    have hm := List.mem_map_of_mem Entry.key he
    rw [hkey] at hm
    exact hm

theorem consistent_markInit {c : Cache K V} (hc : Consistent c) :
    Consistent { c with init := true } := by
  obtain ⟨-, hid, hkey, hck, hpe, hep, hlen, hfresh⟩ := hc
  refine ⟨fun h => (by cases h), hid, hkey, hck, hpe, hep, hlen, hfresh⟩

theorem consistent_removeElement {c : Cache K V} {e : Entry K V}
    (hc : Consistent c) (he : e ∈ c.ll) : Consistent (removeElement c e).1 := by
  obtain ⟨hinit, hid, hkey, hck, hpe, hep, hlen, hfresh⟩ := hc
  have hfind : findId e.id c.ll = some e := findId_of_mem hid he
  refine ⟨?_, ?_, ?_, ?_, ?_, ?_, ?_, ?_⟩
  · intro hf
    rw [(hinit hf).1] at he
    cases he
  · exact hid.sublist (List.Sublist.map Entry.id (removeId_sublist _ _))
  · exact hkey.sublist (List.Sublist.map Entry.key (removeId_sublist _ _))
  · exact hck.sublist (List.Sublist.map Prod.fst (eraseKey_sublist _ _))
  · intro p hp
    obtain ⟨hp1, hp2⟩ := mem_eraseKey.1 hp
    obtain ⟨e₀, he₀, hid₀, hkey₀⟩ := hpe p hp1
    have hne : e₀.id ≠ e.id := by
      intro hideq
      have : e₀ = e := List.inj_on_of_nodup_map hid he₀ he hideq
      exact hp2 (hkey₀ ▸ (this ▸ rfl))
    exact ⟨e₀, mem_removeId_of_ne he₀ hne, hid₀, hkey₀⟩
  · intro e' he'
    have he'm : e' ∈ c.ll := (removeId_sublist _ _).subset he'
    refine mem_eraseKey.2 ⟨hep e' he'm, ?_⟩
    intro hk
    have heq : e' = e := List.inj_on_of_nodup_map hkey he'm he hk
    subst heq
    exact id_not_mem_removeId hid hfind (List.mem_map_of_mem Entry.id he')
  · have h1 := length_eraseKey hck (hep e he)
    have h2 := length_removeId hfind
    simp only [removeElement]
    omega
  · intro e' he'
    exact hfresh e' ((removeId_sublist _ _).subset he')

theorem consistent_front_removeId {c : Cache K V} {e : Entry K V} (hc : Consistent c)
    (hfind : findId e.id c.ll = some e) (v' : V) :
    Consistent { c with ll := ⟨e.id, e.key, v'⟩ :: removeId e.id c.ll } ∧
    ((⟨e.id, e.key, v'⟩ :: removeId e.id c.ll : List (Entry K V)).map Entry.key
      = e.key :: eraseKList e.key (c.ll.map Entry.key)) := by
  obtain ⟨hinit, hid, hkey, hck, hpe, hep, hlen, hfresh⟩ := hc
  have he : e ∈ c.ll := (findId_some hfind).1
  have hkeys := keysOf_removeId (l := c.ll) hkey hfind
  constructor
  · refine ⟨?_, ?_, ?_, ?_, ?_, ?_, ?_, ?_⟩
    · intro hf
      rw [(hinit hf).1] at hfind
      simp [findId] at hfind
    · rw [List.map_cons]
      exact List.nodup_cons.2 ⟨id_not_mem_removeId hid hfind,
        hid.sublist (List.Sublist.map Entry.id (removeId_sublist _ _))⟩
    · rw [List.map_cons, hkeys]
      exact List.nodup_cons.2 ⟨not_mem_eraseKList_self hkey,
        hkey.sublist (eraseKList_sublist _ _)⟩
    · exact hck
    · intro p hp
      obtain ⟨e₀, he₀, hid₀, hkey₀⟩ := hpe p hp
      rcases eq_or_ne e₀ e with heq | hne'
      · subst heq
        exact ⟨⟨e₀.id, e₀.key, v'⟩, List.mem_cons_self _ _, hid₀, hkey₀⟩
      · have hne : e₀.id ≠ e.id := fun h => hne' (List.inj_on_of_nodup_map hid he₀ he h)
        exact ⟨e₀, List.mem_cons_of_mem _ (mem_removeId_of_ne he₀ hne), hid₀, hkey₀⟩
    · intro e' he'
      rcases List.mem_cons.1 he' with rfl | he''
      · exact hep e he
      · exact hep e' ((removeId_sublist _ _).subset he'')
    · have h2 := length_removeId hfind
      simp only [List.length_cons]
      omega
    · intro e' he'
      rcases List.mem_cons.1 he' with rfl | he''
      · exact hfresh e he
      · exact hfresh e' ((removeId_sublist _ _).subset he'')
  · rw [List.map_cons, hkeys]

theorem consistent_pushFront {c : Cache K V} {k : K} {v : V} (hc : Consistent c)
    (hinit : c.init = true) (hlk : lookupKey k c.cache = none) :
    Consistent { c with ll := ⟨c.nextId, k, v⟩ :: c.ll, cache := insertKey k c.nextId c.cache, nextId := c.nextId + 1 } := by
  obtain ⟨-, hid, hkey, hck, hpe, hep, hlen, hfresh⟩ := hc
  have hknotin : ∀ p ∈ c.cache, p.1 ≠ k := lookupKey_eq_none_iff.1 hlk
  have hins : insertKey k c.nextId c.cache = (k, c.nextId) :: c.cache := by
    rw [insertKey, eraseKey_eq_self hknotin]
  have hkmem : k ∉ c.ll.map Entry.key := by
    intro hm
    obtain ⟨e, he, rfl⟩ := List.mem_map.1 hm
    exact hknotin _ (hep e he) rfl
  refine ⟨fun hf => (by rw [hinit] at hf; cases hf), ?_, ?_, ?_, ?_, ?_, ?_, ?_⟩
  · rw [List.map_cons]
    refine List.nodup_cons.2 ⟨?_, hid⟩
    intro hm
    obtain ⟨e, he, hide⟩ := List.mem_map.1 hm
    have h1 : e.id < c.nextId := hfresh e he
    have h2 : e.id = c.nextId := hide
    omega
  · rw [List.map_cons]
    exact List.nodup_cons.2 ⟨hkmem, hkey⟩
  · rw [hins, List.map_cons]
    refine List.nodup_cons.2 ⟨?_, hck⟩
    intro hm
    obtain ⟨p, hp, hpk⟩ := List.mem_map.1 hm
    exact hknotin p hp hpk
  · rw [hins]
    intro p hp
    rcases List.mem_cons.1 hp with rfl | hp'
    · exact ⟨⟨c.nextId, k, v⟩, List.mem_cons_self _ _, rfl, rfl⟩
    · obtain ⟨e₀, he₀, hid₀, hkey₀⟩ := hpe p hp'
      exact ⟨e₀, List.mem_cons_of_mem _ he₀, hid₀, hkey₀⟩
  · rw [hins]
    intro e' he'
    rcases List.mem_cons.1 he' with rfl | he''
    · exact List.mem_cons_self _ _
    · exact List.mem_cons_of_mem _ (hep e' he'')
  · rw [hins]
    simp only [List.length_cons, hlen]
  · intro e' he'
    rcases List.mem_cons.1 he' with rfl | he''
    · exact Nat.lt_succ_self _
    · exact Nat.lt_succ_of_lt (hfresh e' he'')

end LRU

namespace LRU

variable {K V : Type} [DecidableEq K]

theorem RemoveOldest_spec {c : Cache K V} (hc : Consistent c) :
    Consistent (RemoveOldest c).1 ∧ (RemoveOldest c).1.maxEntries = c.maxEntries ∧
    (RemoveOldest c).1.ll.map Entry.key = (c.ll.map Entry.key).dropLast := by
  by_cases hin : c.init = false
  · have hll : c.ll = [] := (hc.1 hin).1
    simp [RemoveOldest, hin, hll, hc]
  · rw [RemoveOldest, if_neg hin]
    cases hb : llBack c.ll with
    | none =>
        have hll : c.ll = [] := by
          rw [llBack_eq_getLast?] at hb
          exact List.getLast?_eq_none_iff.1 hb
        simp [hll, hc]
    | some e =>
        have hmem : e ∈ c.ll := by
          rw [llBack_eq_getLast?] at hb
          exact List.mem_of_mem_getLast? hb
        have hrem : removeId e.id c.ll = c.ll.dropLast := removeId_back hc.2.1 hb
        refine ⟨consistent_removeElement hc hmem, rfl, ?_⟩
        simp only [removeElement, hrem]
        exact map_dropLast' Entry.key c.ll

theorem Get_spec {c : Cache K V} (hc : Consistent c) (k : K) :
    Consistent (Get c k).1 ∧ (Get c k).1.maxEntries = c.maxEntries ∧
    (Get c k).1.ll.map Entry.key
      = specStep (V := V) c.maxEntries (c.ll.map Entry.key) (COp.get k) := by
  by_cases hin : c.init = false
  · have hll : c.ll = [] := (hc.1 hin).1
    simp [Get, hin, hll, hc, specStep]
  · rw [Get, if_neg hin]
    cases hlk : lookupKey k c.cache with
    | none =>
        have hk : k ∉ c.ll.map Entry.key := by
          rw [mem_keys_iff_lookup hc]
          rintro ⟨id, h⟩
          rw [h] at hlk
          cases hlk
        simp [hc, specStep, hk]
    | some id =>
        obtain ⟨e, he, hide, hkeye⟩ := hc.2.2.2.2.1 _ (mem_of_lookupKey_some hlk)
        have hid2 : e.id = id := hide
        have hkey2 : e.key = k := hkeye
        subst hid2
        have hfind : findId e.id c.ll = some e := findId_of_mem hc.2.1 he
        have hkin : k ∈ c.ll.map Entry.key :=
          (mem_keys_iff_lookup hc).2 ⟨e.id, hlk⟩
        have hmv : moveToFront e.id c.ll = e :: removeId e.id c.ll := by
          rw [moveToFront, hfind]
        obtain ⟨hcons, -⟩ := consistent_front_removeId hc hfind e.value
        simp only [hfind]
        refine ⟨?_, trivial, ?_⟩
        · rw [hmv]
          exact hcons
        · rw [hmv, specStep, if_pos hkin, List.map_cons,
            keysOf_removeId hc.2.2.1 hfind, hkey2]

theorem Remove_spec {c : Cache K V} (hc : Consistent c) (k : K) :
    Consistent (Remove c k).1 ∧ (Remove c k).1.maxEntries = c.maxEntries ∧
    (Remove c k).1.ll.map Entry.key
      = specStep (V := V) c.maxEntries (c.ll.map Entry.key) (COp.remove k) := by
  by_cases hin : c.init = false
  · have hll : c.ll = [] := (hc.1 hin).1
    simp [Remove, hin, hll, hc, specStep, eraseKList]
  · rw [Remove, if_neg hin]
    cases hlk : lookupKey k c.cache with
    | none =>
        have hk : k ∉ c.ll.map Entry.key := by
          rw [mem_keys_iff_lookup hc]
          rintro ⟨id, h⟩
          rw [h] at hlk
          cases hlk
        simp [hc, specStep, eraseKList_of_not_mem hk]
    | some id =>
        obtain ⟨e, he, hide, hkeye⟩ := hc.2.2.2.2.1 _ (mem_of_lookupKey_some hlk)
        have hid2 : e.id = id := hide
        have hkey2 : e.key = k := hkeye
        subst hid2
        have hfind : findId e.id c.ll = some e := findId_of_mem hc.2.1 he
        simp only [hfind]
        refine ⟨consistent_removeElement hc he, rfl, ?_⟩
        simp only [removeElement, specStep]
        rw [keysOf_removeId hc.2.2.1 hfind, hkey2]

theorem Add_spec_core {c : Cache K V} (hc : Consistent c) (hinit : c.init = true)
    (k : K) (v : V) :
    Consistent (Add c k v).1 ∧ (Add c k v).1.maxEntries = c.maxEntries ∧
    (Add c k v).1.ll.map Entry.key
      = specStep (V := V) c.maxEntries (c.ll.map Entry.key) (COp.add k v) := by
  rw [Add]
  simp only [hinit, if_true]
  cases hlk : lookupKey k c.cache with
  | some id =>
      obtain ⟨e, he, hide, hkeye⟩ := hc.2.2.2.2.1 _ (mem_of_lookupKey_some hlk)
      have hid2 : e.id = id := hide
      have hkey2 : e.key = k := hkeye
      subst hid2
      have hfind : findId e.id c.ll = some e := findId_of_mem hc.2.1 he
      have hkin : k ∈ c.ll.map Entry.key :=
        (mem_keys_iff_lookup hc).2 ⟨e.id, hlk⟩
      have hupd : updValue e.id v (moveToFront e.id c.ll)
          = ⟨e.id, e.key, v⟩ :: removeId e.id c.ll := by
        rw [moveToFront, hfind, updValue, if_pos rfl]
      obtain ⟨hcons, hkeys⟩ := consistent_front_removeId hc hfind v
      rw [hinit] at hcons
      simp only [hupd]
      exact ⟨hcons, trivial, by rw [hkeys, hkey2, specStep, if_pos hkin]⟩
  | none =>
      have hkout : k ∉ c.ll.map Entry.key := by
        rw [mem_keys_iff_lookup hc]
        rintro ⟨id, h⟩
        rw [h] at hlk
        cases hlk
      have hcons2 := consistent_pushFront (v := v) hc hinit hlk
      rw [hinit] at hcons2
      by_cases hcond : c.maxEntries ≠ 0 ∧ c.ll.length + 1 > c.maxEntries
      · have hcond' : ({ c with ll := ⟨c.nextId, k, v⟩ :: c.ll, cache := insertKey k c.nextId c.cache, nextId := c.nextId + 1, init := true } : Cache K V).maxEntries ≠ 0 ∧ (({ c with ll := ⟨c.nextId, k, v⟩ :: c.ll, cache := insertKey k c.nextId c.cache, nextId := c.nextId + 1, init := true } : Cache K V).ll).length > ({ c with ll := ⟨c.nextId, k, v⟩ :: c.ll, cache := insertKey k c.nextId c.cache, nextId := c.nextId + 1, init := true } : Cache K V).maxEntries := by
          simpa using hcond
        rw [if_pos hcond']
        obtain ⟨h1, h2, h3⟩ := RemoveOldest_spec hcons2
        have hsp : c.maxEntries ≠ 0 ∧ (k :: c.ll.map Entry.key).length > c.maxEntries := by
          simpa using hcond
        have hk3 : (RemoveOldest ({ c with ll := ⟨c.nextId, k, v⟩ :: c.ll, cache := insertKey k c.nextId c.cache, nextId := c.nextId + 1, init := true } : Cache K V)).1.ll.map Entry.key = specStep (V := V) c.maxEntries (c.ll.map Entry.key) (COp.add k v) := by
          rw [h3, specStep, if_neg hkout, if_pos hsp]
          simp
        exact ⟨h1, h2, hk3⟩
      · have hcond' : ¬(({ c with ll := ⟨c.nextId, k, v⟩ :: c.ll, cache := insertKey k c.nextId c.cache, nextId := c.nextId + 1, init := true } : Cache K V).maxEntries ≠ 0 ∧ (({ c with ll := ⟨c.nextId, k, v⟩ :: c.ll, cache := insertKey k c.nextId c.cache, nextId := c.nextId + 1, init := true } : Cache K V).ll).length > ({ c with ll := ⟨c.nextId, k, v⟩ :: c.ll, cache := insertKey k c.nextId c.cache, nextId := c.nextId + 1, init := true } : Cache K V).maxEntries) := by
          simpa using hcond
        rw [if_neg hcond']
        have hsp : ¬(c.maxEntries ≠ 0 ∧ (k :: c.ll.map Entry.key).length > c.maxEntries) := by
          simpa using hcond
        have hk3 : ((⟨c.nextId, k, v⟩ : Entry K V) :: c.ll).map Entry.key = specStep (V := V) c.maxEntries (c.ll.map Entry.key) (COp.add k v) := by
          rw [specStep, if_neg hkout, if_neg hsp]
          simp
        exact ⟨hcons2, rfl, hk3⟩

theorem Add_spec {c : Cache K V} (hc : Consistent c) (k : K) (v : V) :
    Consistent (Add c k v).1 ∧ (Add c k v).1.maxEntries = c.maxEntries ∧
    (Add c k v).1.ll.map Entry.key
      = specStep (V := V) c.maxEntries (c.ll.map Entry.key) (COp.add k v) := by
  by_cases hinit : c.init = true
  · exact Add_spec_core hc hinit k v
  · have hin : c.init = false := by
      cases h : c.init
      · rfl
      · exact absurd h hinit
    have heq : Add c k v = Add { c with init := true } k v := by
      rw [Add, Add]
      simp [hin]
    rw [heq]
    exact Add_spec_core (consistent_markInit hc) rfl k v

theorem execOp_spec {c : Cache K V} (hc : Consistent c) (op : COp K V) :
    Consistent (execOp c op) ∧ (execOp c op).maxEntries = c.maxEntries ∧
    (execOp c op).ll.map Entry.key
      = specStep (V := V) c.maxEntries (c.ll.map Entry.key) op := by
  cases op with
  | add k v => exact Add_spec hc k v
  | get k => exact Get_spec hc k
  | remove k => exact Remove_spec hc k
  | removeOldest =>
      obtain ⟨h1, h2, h3⟩ := RemoveOldest_spec hc
      refine ⟨h1, h2, ?_⟩
      show (RemoveOldest c).1.ll.map Entry.key = _
      rw [h3, specStep]

theorem execOps_spec {c : Cache K V} (hc : Consistent c) (ops : List (COp K V)) :
    Consistent (execOps c ops) ∧ (execOps c ops).maxEntries = c.maxEntries ∧
    (execOps c ops).ll.map Entry.key
      = specRecency c.maxEntries (c.ll.map Entry.key) ops := by
  induction ops generalizing c with
  | nil => exact ⟨hc, rfl, rfl⟩
  | cons op ops ih =>
      obtain ⟨h1, h2, h3⟩ := execOp_spec hc op
      obtain ⟨g1, g2, g3⟩ := ih h1
      refine ⟨g1, g2.trans h2, ?_⟩
      show (execOps (execOp c op) ops).ll.map Entry.key = _
      rw [g3, h3, h2, specRecency]

theorem consistent_New (max : Nat) : Consistent (New K V max) := by
  refine ⟨fun h => ⟨rfl, rfl⟩, ?_, ?_, ?_, ?_, ?_, rfl, ?_⟩ <;> simp [New]

end LRU

/-! ## Helper lemmas for the interleaving semantics -/

theorem lt_of_getElem?_some {α : Type} {l : List α} {n : Nat} {a : α}
    (h : l[n]? = some a) : n < l.length := by
  by_contra hn
  rw [List.getElem?_eq_none (Nat.le_of_not_lt hn)] at h
  cases h

theorem getElem?_modifyAt {α : Type} (f : α → α) (l : List α) (n m : Nat) :
    (modifyAt n f l)[m]? = if m = n then (l[n]?).map f else l[m]? := by
  induction l generalizing n m with
  | nil => simp [modifyAt]
  | cons a l ih =>
      cases n with
      | zero =>
          cases m with
          | zero => simp [modifyAt]
          | succ m' => simp [modifyAt]
      | succ n' =>
          cases m with
          | zero => simp [modifyAt]
          | succ m' =>
              simp only [modifyAt, List.getElem?_cons_succ, ih,
                Nat.succ_eq_add_one]
              by_cases hmn : m' = n'
              · simp [hmn]
              · simp [hmn, fun h => hmn (Nat.succ_injective h)]

theorem length_modifyAt {α : Type} (f : α → α) (l : List α) (n : Nat) :
    (modifyAt n f l).length = l.length := by
  induction l generalizing n with
  | nil => cases n <;> rfl
  | cons a l ih =>
      cases n with
      | zero => rfl
      | succ n' => simp [modifyAt, ih]

theorem getElem?_setAt_self {α : Type} {l : List α} {n : Nat} {b : α} (a : α)
    (h : l[n]? = some b) : (setAt n a l)[n]? = some a := by
  rw [setAt, getElem?_modifyAt, if_pos rfl, h, Option.map_some']

theorem getElem?_setAt_ne {α : Type} {l : List α} {n m : Nat} (a : α)
    (h : m ≠ n) : (setAt n a l)[m]? = l[m]? := by
  rw [setAt, getElem?_modifyAt, if_neg h]

theorem length_setAt {α : Type} (a : α) (l : List α) (n : Nat) :
    (setAt n a l).length = l.length := length_modifyAt _ l n

theorem countP_modifyAt_incr {α : Type} {l : List α} {n : Nat} {c : α}
    {p : α → Bool} {f : α → α} (hn : l[n]? = some c) (hc : p c = false)
    (hf : p (f c) = true) :
    (modifyAt n f l).countP p = l.countP p + 1 := by
  induction l generalizing n with
  | nil => cases hn
  | cons a l ih =>
      cases n with
      | zero =>
          rw [List.getElem?_cons_zero] at hn
          cases hn
          simp [modifyAt, List.countP_cons, hc, hf]
      | succ n' =>
          rw [List.getElem?_cons_succ] at hn
          simp only [modifyAt, List.countP_cons, ih hn]
          omega

theorem countP_modifyAt_same {α : Type} {l : List α} {n : Nat} {c : α}
    {p : α → Bool} {f : α → α} (hn : l[n]? = some c) (hpf : p (f c) = p c) :
    (modifyAt n f l).countP p = l.countP p := by
  induction l generalizing n with
  | nil => cases hn
  | cons a l ih =>
      cases n with
      | zero =>
          rw [List.getElem?_cons_zero] at hn
          cases hn
          simp [modifyAt, List.countP_cons, hpf]
      | succ n' =>
          rw [List.getElem?_cons_succ] at hn
          simp [modifyAt, List.countP_cons, ih hn]

theorem getElem?_setAt_cond {α : Type} {l : List α} {t : Nat} {b : α} (a : α)
    (h : l[t]? = some b) (u : Nat) :
    (setAt t a l)[u]? = if u = t then some a else l[u]? := by
  by_cases hu : u = t
  · subst hu
    rw [if_pos rfl]
    exact getElem?_setAt_self _ h
  · rw [if_neg hu]
    exact getElem?_setAt_ne _ hu

namespace SF

variable {ρ : Type} {fnRes : Nat → ρ}

theorem wf_step {s : GState ρ} (h : WF fnRes s) (t : Nat) :
    WF fnRes (step fnRes s t) := by
  cases hth : s.threads[t]? with
  | none =>
      have hE : step fnRes s t = s := by simp [step, hth]
      rw [hE]
      exact h
  | some ph =>
    cases ph with
    | ret r =>
        have hE : step fnRes s t = s := by simp [step, hth]
        rw [hE]
        exact h
    | start =>
      cases hm : s.mEntry with
      | some cid0 =>
        have hm' : (step fnRes s t).mEntry = s.mEntry := by simp [step, hth, hm]
        have hc' : (step fnRes s t).calls = s.calls := by simp [step, hth, hm]
        have hf' : (step fnRes s t).fnCount = s.fnCount := by simp [step, hth, hm]
        have ht' : ∀ u : Nat, (step fnRes s t).threads[u]? =
            if u = t then some (Phase.wait cid0) else s.threads[u]? := by
          intro u
          have : (step fnRes s t).threads = setAt t (Phase.wait cid0) s.threads := by
            simp [step, hth, hm]
          rw [this]
          exact getElem?_setAt_cond _ hth u
        refine ⟨?_, ?_, ?_, ?_, ?_, ?_, ?_⟩ <;>
          simp only [hm', hc', hf', ht']
        · intro cid hcid
          obtain ⟨t0, sub, ht0, hsub⟩ := h.mEntry_live cid hcid
          have ht0t : ¬(t0 = t) := by
            intro hE
            rw [hE, hth] at ht0
            cases ht0
          exact ⟨t0, sub, by rw [if_neg ht0t]; exact ht0, hsub⟩
        · intro u u' cid cid' sub sub' huu hu hu'
          by_cases h1 : u = t
          · rw [if_pos h1] at hu; cases hu
          · rw [if_neg h1] at hu
            by_cases h2 : u' = t
            · rw [if_pos h2] at hu'; cases hu'
            · rw [if_neg h2] at hu'
              exact h.runner_uniq u u' cid cid' sub sub' huu hu hu'
        · intro u cid sub hu
          by_cases h1 : u = t
          · rw [if_pos h1] at hu; cases hu
          · rw [if_neg h1] at hu
            exact h.runner_call u cid sub hu
        · exact h.call_res
        · exact h.count_eq
        · intro u r hu
          by_cases h1 : u = t
          · rw [if_pos h1] at hu; cases hu
          · rw [if_neg h1] at hu
            exact h.ret_res u r hu
        · intro u cid hu
          by_cases h1 : u = t
          · rw [if_pos h1] at hu
            cases hu
            obtain ⟨t0, sub, ht0, -⟩ := h.mEntry_live cid0 hm
            obtain ⟨c, hcget, -⟩ := h.runner_call t0 cid0 sub ht0
            exact lt_of_getElem?_some hcget
          · rw [if_neg h1] at hu
            exact h.wait_lt u cid hu
      | none =>
        have hm' : (step fnRes s t).mEntry = some s.calls.length := by
          simp [step, hth, hm]
        have hc' : (step fnRes s t).calls = s.calls ++ [⟨false, none⟩] := by
          simp [step, hth, hm]
        have hf' : (step fnRes s t).fnCount = s.fnCount := by simp [step, hth, hm]
        have ht' : ∀ u : Nat, (step fnRes s t).threads[u]? =
            if u = t then some (Phase.run s.calls.length RSub.toExec)
            else s.threads[u]? := by
          intro u
          have hTh : (step fnRes s t).threads
              = setAt t (Phase.run s.calls.length RSub.toExec) s.threads := by
            simp [step, hth, hm]
          rw [hTh]
          exact getElem?_setAt_cond _ hth u
        have hLget : (s.calls ++ [(⟨false, none⟩ : CallRec ρ)])[s.calls.length]?
            = some ⟨false, none⟩ := by
          simp
        have hlen' : (s.calls ++ [(⟨false, none⟩ : CallRec ρ)]).length
            = s.calls.length + 1 := by simp
        refine ⟨?_, ?_, ?_, ?_, ?_, ?_, ?_⟩ <;>
          simp only [hm', hc', hf', ht']
        · intro cid hcid
          have hcid2 : s.calls.length = cid := Option.some.inj hcid
          subst hcid2
          refine ⟨t, RSub.toExec, by rw [if_pos rfl], by intro hE; cases hE⟩
        · intro u u' cid cid' sub sub' huu hu hu'
          by_cases h1 : u = t
          · rw [if_pos h1] at hu
            have h2 : ¬(u' = t) := fun hE => huu (h1.trans hE.symm)
            rw [if_neg h2] at hu'
            simp only [Option.some.injEq, Phase.run.injEq] at hu
            obtain ⟨hL, -⟩ := hu
            obtain ⟨c', hc'get, -⟩ := h.runner_call u' cid' sub' hu'
            have : cid' < s.calls.length := lt_of_getElem?_some hc'get
            omega
          · rw [if_neg h1] at hu
            by_cases h2 : u' = t
            · rw [if_pos h2] at hu'
              simp only [Option.some.injEq, Phase.run.injEq] at hu'
              obtain ⟨hL, -⟩ := hu'
              obtain ⟨c', hc'get, -⟩ := h.runner_call u cid sub hu
              have : cid < s.calls.length := lt_of_getElem?_some hc'get
              omega
            · rw [if_neg h2] at hu'
              exact h.runner_uniq u u' cid cid' sub sub' huu hu hu'
        · intro u cid sub hu
          by_cases h1 : u = t
          · rw [if_pos h1] at hu
            simp only [Option.some.injEq, Phase.run.injEq] at hu
            obtain ⟨hL, hsub⟩ := hu
            subst hL
            subst hsub
            refine ⟨⟨false, none⟩, hLget, ?_, ?_, ?_, ?_⟩
            · exact fun _ => ⟨rfl, rfl, rfl⟩
            · intro hE; cases hE
            · intro hE; cases hE
            · intro hE; cases hE
          · rw [if_neg h1] at hu
            obtain ⟨c', hc'get, hex, hdn, hdl, hrt⟩ := h.runner_call u cid sub hu
            have hlt : cid < s.calls.length := lt_of_getElem?_some hc'get
            refine ⟨c', by rw [List.getElem?_append, if_pos hlt]; exact hc'get, ?_, ?_, ?_, hrt⟩
            · intro hE
              exfalso
              have h3 := (hex hE).2.2
              rw [hm] at h3
              cases h3
            · intro hE
              exfalso
              have h3 := (hdn hE).2.2
              rw [hm] at h3
              cases h3
            · intro hE
              exfalso
              have h3 := (hdl hE).2.2
              rw [hm] at h3
              cases h3
        · intro cid c hcget
          rcases Nat.lt_trichotomy cid s.calls.length with hlt | heq | hgt
          · rw [List.getElem?_append, if_pos hlt] at hcget
            exact h.call_res cid c hcget
          · subst heq
            rw [hLget] at hcget
            cases hcget
            exact ⟨fun hd => (by cases hd), fun r hr => (by cases hr)⟩
          · exfalso
            have : (s.calls ++ [(⟨false, none⟩ : CallRec ρ)])[cid]? = none := by
              apply List.getElem?_eq_none
              rw [hlen']
              omega
            rw [this] at hcget
            cases hcget
        · rw [List.countP_append, h.count_eq]
          simp [List.countP_cons]
        · intro u r hu
          by_cases h1 : u = t
          · rw [if_pos h1] at hu
            cases hu
          · rw [if_neg h1] at hu
            exact h.ret_res u r hu
        · intro u cid hu
          by_cases h1 : u = t
          · rw [if_pos h1] at hu
            cases hu
          · rw [if_neg h1] at hu
            have := h.wait_lt u cid hu
            rw [hlen']
            omega
    | run cid sub =>
      obtain ⟨c, hcget, hex, hdn, hdl, hrt⟩ := h.runner_call t cid sub hth
      cases sub with
      | toExec =>
        obtain ⟨hres, hdone, hment⟩ := hex rfl
        have hm' : (step fnRes s t).mEntry = s.mEntry := by simp [step, hth]
        have hc' : (step fnRes s t).calls
            = modifyAt cid (fun c => { c with res := some (fnRes s.fnCount) }) s.calls := by
          simp [step, hth]
        have hf' : (step fnRes s t).fnCount = s.fnCount + 1 := by simp [step, hth]
        have ht' : ∀ u : Nat, (step fnRes s t).threads[u]? =
            if u = t then some (Phase.run cid RSub.toDone) else s.threads[u]? := by
          intro u
          have hTh : (step fnRes s t).threads
              = setAt t (Phase.run cid RSub.toDone) s.threads := by simp [step, hth]
          rw [hTh]
          exact getElem?_setAt_cond _ hth u
        have hcg : ∀ cid' : Nat,
            (modifyAt cid (fun c => { c with res := some (fnRes s.fnCount) }) s.calls)[cid']?
            = if cid' = cid then some { c with res := some (fnRes s.fnCount) }
              else s.calls[cid']? := by
          intro cid'
          rw [getElem?_modifyAt]
          by_cases hE : cid' = cid
          · rw [if_pos hE, if_pos hE, hcget]
            rfl
          · rw [if_neg hE, if_neg hE]
        refine ⟨?_, ?_, ?_, ?_, ?_, ?_, ?_⟩ <;>
          simp only [hm', hc', hf', ht', hcg]
        · intro cid1 hcid
          rw [hment] at hcid
          have : cid = cid1 := Option.some.inj hcid
          subst this
          exact ⟨t, RSub.toDone, by rw [if_pos rfl], by intro hE; cases hE⟩
        · intro u u' cid1 cid' sub1 sub' huu hu hu'
          by_cases h1 : u = t
          · rw [if_pos h1] at hu
            have h2 : ¬(u' = t) := fun hE => huu (h1.trans hE.symm)
            rw [if_neg h2] at hu'
            simp only [Option.some.injEq, Phase.run.injEq] at hu
            obtain ⟨hcc, -⟩ := hu
            subst hcc
            exact h.runner_uniq t u' cid cid' RSub.toExec sub'
              (fun hE => h2 hE.symm) hth hu'
          · rw [if_neg h1] at hu
            by_cases h2 : u' = t
            · rw [if_pos h2] at hu'
              simp only [Option.some.injEq, Phase.run.injEq] at hu'
              obtain ⟨hcc, -⟩ := hu'
              subst hcc
              exact h.runner_uniq u t cid1 cid sub1 RSub.toExec h1 hu hth
            · rw [if_neg h2] at hu'
              exact h.runner_uniq u u' cid1 cid' sub1 sub' huu hu hu'
        · intro u cid1 sub1 hu
          by_cases h1 : u = t
          · rw [if_pos h1] at hu
            simp only [Option.some.injEq, Phase.run.injEq] at hu
            obtain ⟨hcc, hss⟩ := hu
            subst hcc
            subst hss
            refine ⟨{ c with res := some (fnRes s.fnCount) }, by rw [if_pos rfl], ?_, ?_, ?_, ?_⟩
            · intro hE; cases hE
            · exact fun _ => ⟨rfl, hdone, hment⟩
            · intro hE; cases hE
            · intro hE; cases hE
          · rw [if_neg h1] at hu
            obtain ⟨c', hc'get, hex', hdn', hdl', hrt'⟩ := h.runner_call u cid1 sub1 hu
            have hne : cid1 ≠ cid :=
              h.runner_uniq u t cid1 cid sub1 RSub.toExec (fun hE => h1 hE) hu hth
            exact ⟨c', by rw [if_neg hne]; exact hc'get, hex', hdn', hdl', hrt'⟩
        · intro cid' c' hcg'
          by_cases hE : cid' = cid
          · rw [if_pos hE] at hcg'
            cases hcg'
            refine ⟨fun _ => rfl, ?_⟩
            intro r hr
            simp only [Option.some.injEq] at hr
            exact ⟨s.fnCount, Nat.lt_succ_self _, hr.symm⟩
          · rw [if_neg hE] at hcg'
            obtain ⟨hd, hp⟩ := h.call_res cid' c' hcg'
            refine ⟨hd, ?_⟩
            intro r hr
            obtain ⟨j, hj, hrj⟩ := hp r hr
            exact ⟨j, Nat.lt_succ_of_lt hj, hrj⟩
        · rw [countP_modifyAt_incr hcget (by rw [hres]; rfl) rfl, h.count_eq]
        · intro u r hu
          by_cases h1 : u = t
          · rw [if_pos h1] at hu
            cases hu
          · rw [if_neg h1] at hu
            obtain ⟨j, hj, hrj⟩ := h.ret_res u r hu
            exact ⟨j, Nat.lt_succ_of_lt hj, hrj⟩
        · intro u cid1 hu
          by_cases h1 : u = t
          · rw [if_pos h1] at hu
            cases hu
          · rw [if_neg h1] at hu
            have := h.wait_lt u cid1 hu
            rw [length_modifyAt]
            exact this
      | toDone =>
        obtain ⟨hres, hdone, hment⟩ := hdn rfl
        have hm' : (step fnRes s t).mEntry = s.mEntry := by simp [step, hth]
        have hc' : (step fnRes s t).calls
            = modifyAt cid (fun c => { c with done := true }) s.calls := by
          simp [step, hth]
        have hf' : (step fnRes s t).fnCount = s.fnCount := by simp [step, hth]
        have ht' : ∀ u : Nat, (step fnRes s t).threads[u]? =
            if u = t then some (Phase.run cid RSub.toDelete) else s.threads[u]? := by
          intro u
          have hTh : (step fnRes s t).threads
              = setAt t (Phase.run cid RSub.toDelete) s.threads := by simp [step, hth]
          rw [hTh]
          exact getElem?_setAt_cond _ hth u
        have hcg : ∀ cid' : Nat,
            (modifyAt cid (fun c => { c with done := true }) s.calls)[cid']?
            = if cid' = cid then some { c with done := true } else s.calls[cid']? := by
          intro cid'
          rw [getElem?_modifyAt]
          by_cases hE : cid' = cid
          · rw [if_pos hE, if_pos hE, hcget]
            rfl
          · rw [if_neg hE, if_neg hE]
        refine ⟨?_, ?_, ?_, ?_, ?_, ?_, ?_⟩ <;>
          simp only [hm', hc', hf', ht', hcg]
        · intro cid1 hcid
          rw [hment] at hcid
          have : cid = cid1 := Option.some.inj hcid
          subst this
          exact ⟨t, RSub.toDelete, by rw [if_pos rfl], by intro hE; cases hE⟩
        · intro u u' cid1 cid' sub1 sub' huu hu hu'
          by_cases h1 : u = t
          · rw [if_pos h1] at hu
            have h2 : ¬(u' = t) := fun hE => huu (h1.trans hE.symm)
            rw [if_neg h2] at hu'
            simp only [Option.some.injEq, Phase.run.injEq] at hu
            obtain ⟨hcc, -⟩ := hu
            subst hcc
            exact h.runner_uniq t u' cid cid' RSub.toDone sub'
              (fun hE => h2 hE.symm) hth hu'
          · rw [if_neg h1] at hu
            by_cases h2 : u' = t
            · rw [if_pos h2] at hu'
              simp only [Option.some.injEq, Phase.run.injEq] at hu'
              obtain ⟨hcc, -⟩ := hu'
              subst hcc
              exact h.runner_uniq u t cid1 cid sub1 RSub.toDone h1 hu hth
            · rw [if_neg h2] at hu'
              exact h.runner_uniq u u' cid1 cid' sub1 sub' huu hu hu'
        · intro u cid1 sub1 hu
          by_cases h1 : u = t
          · rw [if_pos h1] at hu
            simp only [Option.some.injEq, Phase.run.injEq] at hu
            obtain ⟨hcc, hss⟩ := hu
            subst hcc
            subst hss
            refine ⟨{ c with done := true }, by rw [if_pos rfl], ?_, ?_, ?_, ?_⟩
            · intro hE; cases hE
            · intro hE; cases hE
            · exact fun _ => ⟨hres, rfl, hment⟩
            · intro hE; cases hE
          · rw [if_neg h1] at hu
            obtain ⟨c', hc'get, hex', hdn', hdl', hrt'⟩ := h.runner_call u cid1 sub1 hu
            have hne : cid1 ≠ cid :=
              h.runner_uniq u t cid1 cid sub1 RSub.toDone (fun hE => h1 hE) hu hth
            exact ⟨c', by rw [if_neg hne]; exact hc'get, hex', hdn', hdl', hrt'⟩
        · intro cid' c' hcg'
          by_cases hE : cid' = cid
          · rw [if_pos hE] at hcg'
            cases hcg'
            obtain ⟨-, hp⟩ := h.call_res cid c hcget
            exact ⟨fun _ => hres, hp⟩
          · rw [if_neg hE] at hcg'
            exact h.call_res cid' c' hcg'
        · rw [countP_modifyAt_same hcget rfl, h.count_eq]
        · intro u r hu
          by_cases h1 : u = t
          · rw [if_pos h1] at hu
            cases hu
          · rw [if_neg h1] at hu
            exact h.ret_res u r hu
        · intro u cid1 hu
          by_cases h1 : u = t
          · rw [if_pos h1] at hu
            cases hu
          · rw [if_neg h1] at hu
            have := h.wait_lt u cid1 hu
            rw [length_modifyAt]
            exact this
      | toDelete =>
        obtain ⟨hres, hdone, hment⟩ := hdl rfl
        have hm' : (step fnRes s t).mEntry = none := by simp [step, hth]
        have hc' : (step fnRes s t).calls = s.calls := by simp [step, hth]
        have hf' : (step fnRes s t).fnCount = s.fnCount := by simp [step, hth]
        have ht' : ∀ u : Nat, (step fnRes s t).threads[u]? =
            if u = t then some (Phase.run cid RSub.toReturn) else s.threads[u]? := by
          intro u
          have hTh : (step fnRes s t).threads
              = setAt t (Phase.run cid RSub.toReturn) s.threads := by simp [step, hth]
          rw [hTh]
          exact getElem?_setAt_cond _ hth u
        refine ⟨?_, ?_, ?_, ?_, ?_, ?_, ?_⟩ <;>
          simp only [hm', hc', hf', ht']
        · intro cid1 hcid
          cases hcid
        · intro u u' cid1 cid' sub1 sub' huu hu hu'
          by_cases h1 : u = t
          · rw [if_pos h1] at hu
            have h2 : ¬(u' = t) := fun hE => huu (h1.trans hE.symm)
            rw [if_neg h2] at hu'
            simp only [Option.some.injEq, Phase.run.injEq] at hu
            obtain ⟨hcc, -⟩ := hu
            subst hcc
            exact h.runner_uniq t u' cid cid' RSub.toDelete sub'
              (fun hE => h2 hE.symm) hth hu'
          · rw [if_neg h1] at hu
            by_cases h2 : u' = t
            · rw [if_pos h2] at hu'
              simp only [Option.some.injEq, Phase.run.injEq] at hu'
              obtain ⟨hcc, -⟩ := hu'
              subst hcc
              exact h.runner_uniq u t cid1 cid sub1 RSub.toDelete h1 hu hth
            · rw [if_neg h2] at hu'
              exact h.runner_uniq u u' cid1 cid' sub1 sub' huu hu hu'
        · intro u cid1 sub1 hu
          by_cases h1 : u = t
          · rw [if_pos h1] at hu
            simp only [Option.some.injEq, Phase.run.injEq] at hu
            obtain ⟨hcc, hss⟩ := hu
            subst hcc
            subst hss
            refine ⟨c, hcget, ?_, ?_, ?_, fun _ => ⟨hres, hdone⟩⟩
            · intro hE; cases hE
            · intro hE; cases hE
            · intro hE; cases hE
          · rw [if_neg h1] at hu
            obtain ⟨c', hc'get, hex', hdn', hdl', hrt'⟩ := h.runner_call u cid1 sub1 hu
            have hne : cid1 ≠ cid :=
              h.runner_uniq u t cid1 cid sub1 RSub.toDelete (fun hE => h1 hE) hu hth
            refine ⟨c', hc'get, ?_, ?_, ?_, hrt'⟩
            · intro hE
              exfalso
              have h3 := (hex' hE).2.2
              rw [hment] at h3
              exact hne (Option.some.inj h3).symm
            · intro hE
              exfalso
              have h3 := (hdn' hE).2.2
              rw [hment] at h3
              exact hne (Option.some.inj h3).symm
            · intro hE
              exfalso
              have h3 := (hdl' hE).2.2
              rw [hment] at h3
              exact hne (Option.some.inj h3).symm
        · exact h.call_res
        · exact h.count_eq
        · intro u r hu
          by_cases h1 : u = t
          · rw [if_pos h1] at hu
            cases hu
          · rw [if_neg h1] at hu
            exact h.ret_res u r hu
        · intro u cid1 hu
          by_cases h1 : u = t
          · rw [if_pos h1] at hu
            cases hu
          · rw [if_neg h1] at hu
            exact h.wait_lt u cid1 hu
      | toReturn =>
        obtain ⟨hres, hdone⟩ := hrt rfl
        obtain ⟨r, hr⟩ := Option.isSome_iff_exists.1 hres
        have hm' : (step fnRes s t).mEntry = s.mEntry := by simp [step, hth, hcget, hr]
        have hc' : (step fnRes s t).calls = s.calls := by simp [step, hth, hcget, hr]
        have hf' : (step fnRes s t).fnCount = s.fnCount := by simp [step, hth, hcget, hr]
        have ht' : ∀ u : Nat, (step fnRes s t).threads[u]? =
            if u = t then some (Phase.ret r) else s.threads[u]? := by
          intro u
          have hTh : (step fnRes s t).threads = setAt t (Phase.ret r) s.threads := by
            simp [step, hth, hcget, hr]
          rw [hTh]
          exact getElem?_setAt_cond _ hth u
        refine ⟨?_, ?_, ?_, ?_, ?_, ?_, ?_⟩ <;>
          simp only [hm', hc', hf', ht']
        · intro cid1 hcid
          obtain ⟨t0, sub0, ht0, hsub0⟩ := h.mEntry_live cid1 hcid
          have ht0t : ¬(t0 = t) := by
            intro hE
            rw [hE, hth] at ht0
            simp only [Option.some.injEq, Phase.run.injEq] at ht0
            exact hsub0 ht0.2.symm
          exact ⟨t0, sub0, by rw [if_neg ht0t]; exact ht0, hsub0⟩
        · intro u u' cid1 cid' sub1 sub' huu hu hu'
          by_cases h1 : u = t
          · rw [if_pos h1] at hu
            cases hu
          · rw [if_neg h1] at hu
            by_cases h2 : u' = t
            · rw [if_pos h2] at hu'
              cases hu'
            · rw [if_neg h2] at hu'
              exact h.runner_uniq u u' cid1 cid' sub1 sub' huu hu hu'
        · intro u cid1 sub1 hu
          by_cases h1 : u = t
          · rw [if_pos h1] at hu
            cases hu
          · rw [if_neg h1] at hu
            exact h.runner_call u cid1 sub1 hu
        · exact h.call_res
        · exact h.count_eq
        · intro u r1 hu
          by_cases h1 : u = t
          · rw [if_pos h1] at hu
            have hr1 : r = r1 := by
              have := Option.some.inj hu
              cases this
              rfl
            subst hr1
            exact (h.call_res cid c hcget).2 r hr
          · rw [if_neg h1] at hu
            exact h.ret_res u r1 hu
        · intro u cid1 hu
          by_cases h1 : u = t
          · rw [if_pos h1] at hu
            cases hu
          · rw [if_neg h1] at hu
            exact h.wait_lt u cid1 hu
    | wait cid =>
      have hlt : cid < s.calls.length := h.wait_lt t cid hth
      have hcex : ∃ c : CallRec ρ, s.calls[cid]? = some c := by
        rw [List.getElem?_eq_getElem hlt]
        exact ⟨_, rfl⟩
      obtain ⟨c, hcget⟩ := hcex
      cases hdone : c.done with
      | false =>
          have hE : step fnRes s t = s := by simp [step, hth, hcget, hdone]
          rw [hE]
          exact h
      | true =>
          have hres : c.res.isSome = true := (h.call_res cid c hcget).1 hdone
          obtain ⟨r, hr⟩ := Option.isSome_iff_exists.1 hres
          have hm' : (step fnRes s t).mEntry = s.mEntry := by
            simp [step, hth, hcget, hdone, hr]
          have hc' : (step fnRes s t).calls = s.calls := by
            simp [step, hth, hcget, hdone, hr]
          have hf' : (step fnRes s t).fnCount = s.fnCount := by
            simp [step, hth, hcget, hdone, hr]
          have ht' : ∀ u : Nat, (step fnRes s t).threads[u]? =
              if u = t then some (Phase.ret r) else s.threads[u]? := by
            intro u
            have hTh : (step fnRes s t).threads = setAt t (Phase.ret r) s.threads := by
              simp [step, hth, hcget, hdone, hr]
            rw [hTh]
            exact getElem?_setAt_cond _ hth u
          refine ⟨?_, ?_, ?_, ?_, ?_, ?_, ?_⟩ <;>
            simp only [hm', hc', hf', ht']
          · intro cid1 hcid
            obtain ⟨t0, sub0, ht0, hsub0⟩ := h.mEntry_live cid1 hcid
            have ht0t : ¬(t0 = t) := by
              intro hE2
              rw [hE2, hth] at ht0
              simp at ht0
            exact ⟨t0, sub0, by rw [if_neg ht0t]; exact ht0, hsub0⟩
          · intro u u' cid1 cid' sub1 sub' huu hu hu'
            by_cases h1 : u = t
            · rw [if_pos h1] at hu
              cases hu
            · rw [if_neg h1] at hu
              by_cases h2 : u' = t
              · rw [if_pos h2] at hu'
                cases hu'
              · rw [if_neg h2] at hu'
                exact h.runner_uniq u u' cid1 cid' sub1 sub' huu hu hu'
          · intro u cid1 sub1 hu
            by_cases h1 : u = t
            · rw [if_pos h1] at hu
              cases hu
            · rw [if_neg h1] at hu
              exact h.runner_call u cid1 sub1 hu
          · exact h.call_res
          · exact h.count_eq
          · intro u r1 hu
            by_cases h1 : u = t
            · rw [if_pos h1] at hu
              have hr1 : r = r1 := by
                have h2 := Option.some.inj hu
                cases h2
                rfl
              subst hr1
              exact (h.call_res cid c hcget).2 r hr
            · rw [if_neg h1] at hu
              exact h.ret_res u r1 hu
          · intro u cid1 hu
            by_cases h1 : u = t
            · rw [if_pos h1] at hu
              cases hu
            · rw [if_neg h1] at hu
              exact h.wait_lt u cid1 hu

end SF

namespace SF

variable {ρ : Type} {fnRes : Nat → ρ}

theorem mem_setAt {α : Type} {x a : α} {l : List α} {n : Nat}
    (h : x ∈ setAt n a l) : x ∈ l ∨ x = a := by
  induction l generalizing n with
  | nil => cases n <;> simp [setAt, modifyAt] at h
  | cons b l ih =>
      cases n with
      | zero =>
          rcases List.mem_cons.1 h with rfl | h'
          · exact Or.inr rfl
          · exact Or.inl (List.mem_cons_of_mem _ h')
      | succ n' =>
          rcases List.mem_cons.1 h with rfl | h'
          · exact Or.inl (List.mem_cons_self _ _)
          · rcases ih h' with h2 | h2
            · exact Or.inl (List.mem_cons_of_mem _ h2)
            · exact Or.inr h2

theorem noStart_setAt {l : List (Phase ρ)} {t : Nat} {ph' : Phase ρ}
    (h : l.all (fun ph => !ph.isStart) = true) (hph : ph'.isStart = false) :
    (setAt t ph' l).all (fun ph => !ph.isStart) = true := by
  rw [List.all_eq_true]
  intro x hx
  rcases mem_setAt hx with h2 | h2
  · exact List.all_eq_true.1 h x h2
  · subst h2
    simp [hph]

theorem no_start_thread {s : GState ρ} (h : noStart s = true) {t : Nat}
    (ht : s.threads[t]? = some Phase.start) : False := by
  have hmem : Phase.start ∈ s.threads := by
    have := List.getElem?_eq_some.1 ht
    obtain ⟨hlt, hget⟩ := this
    exact hget ▸ List.getElem_mem hlt
  have := List.all_eq_true.1 h _ hmem
  simp [Phase.isStart] at this

theorem sfInit_wf (n : Nat) : WF fnRes (sfInit ρ n) := by
  have hth : ∀ (t : Nat) (ph : Phase ρ), (sfInit ρ n).threads[t]? = some ph →
      ph = Phase.start := by
    intro t ph h
    have : (List.replicate n (Phase.start : Phase ρ))[t]? = some ph := h
    rcases List.getElem?_eq_some.1 this with ⟨hlt, hget⟩
    rw [List.getElem_replicate] at hget
    exact hget.symm
  refine ⟨?_, ?_, ?_, ?_, ?_, ?_, ?_⟩
  · intro cid hcid
    cases hcid
  · intro u u' cid cid' sub sub' huu hu hu'
    have := hth u _ hu
    cases this
  · intro u cid sub hu
    have := hth u _ hu
    cases this
  · intro cid c hc
    cases hc
  · rfl
  · intro u r hu
    have := hth u _ hu
    cases this
  · intro u cid hu
    have := hth u _ hu
    cases this

theorem sfInit_uniq (n : Nat) : UniqCalls (sfInit ρ n) := by
  refine ⟨by simp [sfInit], ?_⟩
  intro h1 h2
  simp [sfInit] at h2

end SF

namespace SF

variable {ρ : Type} {fnRes : Nat → ρ}

theorem uniq_step {s : GState ρ} (hwf : WF fnRes s) (hu : UniqCalls s) (t : Nat)
    (hok : isDeleteStep s t = true → noStart s = true) :
    UniqCalls (step fnRes s t) := by
  cases hth : s.threads[t]? with
  | none =>
      have hE : step fnRes s t = s := by simp [step, hth]
      rw [hE]
      exact hu
  | some ph =>
    cases ph with
    | ret r =>
        have hE : step fnRes s t = s := by simp [step, hth]
        rw [hE]
        exact hu
    | start =>
      cases hm : s.mEntry with
      | some cid0 =>
          have hm' : (step fnRes s t).mEntry = some cid0 := by simp [step, hth, hm]
          have hc' : (step fnRes s t).calls = s.calls := by simp [step, hth, hm]
          refine ⟨by rw [hc']; exact hu.calls_le, ?_⟩
          rw [hm']
          intro h1
          cases h1
      | none =>
          have hm' : (step fnRes s t).mEntry = some s.calls.length := by
            simp [step, hth, hm]
          have hc' : (step fnRes s t).calls = s.calls ++ [⟨false, none⟩] := by
            simp [step, hth, hm]
          have hzero : s.calls.length = 0 := by
            by_contra hlen
            have h1 : s.calls.length = 1 := by
              have := hu.calls_le
              omega
            have hns := hu.after_delete hm h1
            exact absurd (no_start_thread hns hth) (fun h => h)
          refine ⟨?_, ?_⟩
          · rw [hc']
            simp [hzero]
          · rw [hm']
            intro h1
            cases h1
    | run cid sub =>
      obtain ⟨c, hcget, hex, hdn, hdl, hrt⟩ := hwf.runner_call t cid sub hth
      cases sub with
      | toExec =>
          obtain ⟨-, -, hment⟩ := hex rfl
          have hm' : (step fnRes s t).mEntry = s.mEntry := by simp [step, hth]
          have hc' : (step fnRes s t).calls
              = modifyAt cid (fun c => { c with res := some (fnRes s.fnCount) }) s.calls := by
            simp [step, hth]
          refine ⟨?_, ?_⟩
          · rw [hc', length_modifyAt]
            exact hu.calls_le
          · rw [hm', hment]
            intro h1
            cases h1
      | toDone =>
          obtain ⟨-, -, hment⟩ := hdn rfl
          have hm' : (step fnRes s t).mEntry = s.mEntry := by simp [step, hth]
          have hc' : (step fnRes s t).calls
              = modifyAt cid (fun c => { c with done := true }) s.calls := by
            simp [step, hth]
          refine ⟨?_, ?_⟩
          · rw [hc', length_modifyAt]
            exact hu.calls_le
          · rw [hm', hment]
            intro h1
            cases h1
      | toDelete =>
          have hns : noStart s = true := hok (by simp [isDeleteStep, hth])
          have hm' : (step fnRes s t).mEntry = none := by simp [step, hth]
          have hc' : (step fnRes s t).calls = s.calls := by simp [step, hth]
          have ht2 : (step fnRes s t).threads
              = setAt t (Phase.run cid RSub.toReturn) s.threads := by
            simp [step, hth]
          refine ⟨by rw [hc']; exact hu.calls_le, ?_⟩
          intro h1 h2
          rw [noStart, ht2]
          exact noStart_setAt hns rfl
      | toReturn =>
          obtain ⟨hres, -⟩ := hrt rfl
          obtain ⟨r, hr⟩ := Option.isSome_iff_exists.1 hres
          have hm' : (step fnRes s t).mEntry = s.mEntry := by
            simp [step, hth, hcget, hr]
          have hc' : (step fnRes s t).calls = s.calls := by
            simp [step, hth, hcget, hr]
          have ht2 : (step fnRes s t).threads = setAt t (Phase.ret r) s.threads := by
            simp [step, hth, hcget, hr]
          refine ⟨by rw [hc']; exact hu.calls_le, ?_⟩
          intro h1 h2
          rw [hm'] at h1
          rw [hc'] at h2
          have hns := hu.after_delete h1 h2
          rw [noStart, ht2]
          exact noStart_setAt hns rfl
    | wait cid =>
      have hlt : cid < s.calls.length := hwf.wait_lt t cid hth
      have hcex : ∃ c : CallRec ρ, s.calls[cid]? = some c := by
        rw [List.getElem?_eq_getElem hlt]
        exact ⟨_, rfl⟩
      obtain ⟨c, hcget⟩ := hcex
      cases hdone : c.done with
      | false =>
          have hE : step fnRes s t = s := by simp [step, hth, hcget, hdone]
          rw [hE]
          exact hu
      | true =>
          have hres : c.res.isSome = true := (hwf.call_res cid c hcget).1 hdone
          obtain ⟨r, hr⟩ := Option.isSome_iff_exists.1 hres
          have hm' : (step fnRes s t).mEntry = s.mEntry := by
            simp [step, hth, hcget, hdone, hr]
          have hc' : (step fnRes s t).calls = s.calls := by
            simp [step, hth, hcget, hdone, hr]
          have ht2 : (step fnRes s t).threads = setAt t (Phase.ret r) s.threads := by
            simp [step, hth, hcget, hdone, hr]
          refine ⟨by rw [hc']; exact hu.calls_le, ?_⟩
          intro h1 h2
          rw [hm'] at h1
          rw [hc'] at h2
          have hns := hu.after_delete h1 h2
          rw [noStart, ht2]
          exact noStart_setAt hns rfl

theorem wf_run (σ : List Nat) {s : GState ρ} (hwf : WF fnRes s) :
    WF fnRes (sfRun fnRes s σ) := by
  induction σ generalizing s with
  | nil => exact hwf
  | cons t σ ih => exact ih (wf_step hwf t)

theorem wf_uniq_run (σ : List Nat) {s : GState ρ} (hwf : WF fnRes s)
    (hu : UniqCalls s) (hok : okRun fnRes s σ = true) :
    WF fnRes (sfRun fnRes s σ) ∧ UniqCalls (sfRun fnRes s σ) := by
  induction σ generalizing s with
  | nil => exact ⟨hwf, hu⟩
  | cons t σ ih =>
      rw [okRun, Bool.and_eq_true] at hok
      obtain ⟨hok1, hok2⟩ := hok
      have hcond : isDeleteStep s t = true → noStart s = true := by
        intro hd
        rw [Bool.or_eq_true] at hok1
        rcases hok1 with h | h
        · rw [hd] at h
          cases h
        · exact h
      exact ih (wf_step hwf t) (uniq_step hwf hu t hcond) hok2

end SF

namespace SF

variable {ρ : Type} {fnRes : Nat → ρ}

theorem solo_step {s : GState ρ} (hs : SoloInv fnRes s) :
    SoloInv fnRes (step fnRes s 0) := by
  rcases hs with h | h | h | h | h | h <;> subst h <;>
    simp [SoloInv, step, sfInit, setAt, modifyAt]

theorem solo_run {σ : List Nat} (hσ : ∀ x ∈ σ, x = 0) {s : GState ρ}
    (hs : SoloInv fnRes s) : SoloInv fnRes (sfRun fnRes s σ) := by
  induction σ generalizing s with
  | nil => exact hs
  | cons t σ ih =>
      have ht : t = 0 := hσ t (List.mem_cons_self _ _)
      subst ht
      exact ih (fun x hx => hσ x (List.mem_cons_of_mem _ hx)) (solo_step hs)

end SF

/-! ## The claims -/

namespace SF

/-- C1: for any set of N concurrent callers invoking `Group.Do` with the same
key while no call for that key is in flight at the start (formalised as: the
run starts from `sfInit`, where the map has no entry for the key, and the
schedule is concurrent in the sense of `okRun`: every caller enters `Do`
before any removal of the call record), the wrapped function is executed
exactly once (`fnCount = 1`), and every caller that completes returns the
identical `(value, error)` pair `fnRes 0` produced by that single
execution. -/
theorem singleflight_concurrent_dedup (ρ : Type) (fnRes : Nat → ρ) (n : Nat)
    (σ : List Nat) (hn : 0 < n) (hok : okRun fnRes (sfInit ρ n) σ = true)
    (hfin : ∀ u : Nat, u < n →
      ∃ r : ρ, (sfRun fnRes (sfInit ρ n) σ).threads[u]? = some (Phase.ret r)) :
    (sfRun fnRes (sfInit ρ n) σ).fnCount = 1 ∧
    ∀ u : Nat, u < n →
      (sfRun fnRes (sfInit ρ n) σ).threads[u]? = some (Phase.ret (fnRes 0)) := by
  obtain ⟨hwf, hu⟩ := wf_uniq_run σ (sfInit_wf n) (sfInit_uniq n) hok
  have hle : (sfRun fnRes (sfInit ρ n) σ).fnCount ≤ 1 := by
    rw [hwf.count_eq]
    exact le_trans (List.countP_le_length _) hu.calls_le
  have hge : 0 < (sfRun fnRes (sfInit ρ n) σ).fnCount := by
    obtain ⟨r, hr⟩ := hfin 0 hn
    obtain ⟨j, hj, -⟩ := hwf.ret_res 0 r hr
    omega
  have h1 : (sfRun fnRes (sfInit ρ n) σ).fnCount = 1 := by omega
  refine ⟨h1, ?_⟩
  intro u hu2
  obtain ⟨r, hr⟩ := hfin u hu2
  obtain ⟨j, hj, hrj⟩ := hwf.ret_res u r hr
  rw [h1] at hj
  have hj0 : j = 0 := by omega
  subst hj0
  rw [hr, hrj]

/-- Witness for C1 at a concrete concurrent schedule with two callers. -/
theorem singleflight_concurrent_dedup_witness :
    (sfRun exFn (sfInit (Nat × Nat) 2) [0, 1, 0, 0, 1, 0, 0]).fnCount = 1 ∧
    ∀ u : Nat, u < 2 →
      (sfRun exFn (sfInit (Nat × Nat) 2) [0, 1, 0, 0, 1, 0, 0]).threads[u]?
        = some (Phase.ret (exFn 0)) :=
  singleflight_concurrent_dedup (Nat × Nat) exFn 2 [0, 1, 0, 0, 1, 0, 0]
    (by decide) (by decide)
    (by
      intro u hu
      have h2 : u = 0 ∨ u = 1 := by omega
      rcases h2 with rfl | rfl
      · exact ⟨(100, 0), by decide⟩
      · exact ⟨(100, 0), by decide⟩)

end SF

namespace SF

/-- C7: `Group.Do` is a transparent pass-through for errors.  With results
modelled as `(value, error)` pairs, every pair returned by a caller is
exactly the pair produced by some execution of the wrapped function — the
Group performs no retry and adds no wrapping in either component — and
under a concurrent schedule (`okRun`) any two callers that complete receive
the identical pair. -/
theorem singleflight_error_passthrough (α ε : Type) (fnRes : Nat → α × ε)
    (n : Nat) (σ : List Nat) :
    (∀ (u : Nat) (v : α) (e : ε),
      (sfRun fnRes (sfInit (α × ε) n) σ).threads[u]? = some (Phase.ret (v, e)) →
      ∃ j : Nat, j < (sfRun fnRes (sfInit (α × ε) n) σ).fnCount ∧ (v, e) = fnRes j) ∧
    (okRun fnRes (sfInit (α × ε) n) σ = true →
      ∀ (u u' : Nat) (r r' : α × ε),
        (sfRun fnRes (sfInit (α × ε) n) σ).threads[u]? = some (Phase.ret r) →
        (sfRun fnRes (sfInit (α × ε) n) σ).threads[u']? = some (Phase.ret r') →
        r = r') := by
  constructor
  · intro u v e hret
    exact (wf_run σ (sfInit_wf n)).ret_res u (v, e) hret
  · intro hok u u' r r' hr hr'
    obtain ⟨hwf, hu⟩ := wf_uniq_run σ (sfInit_wf n) (sfInit_uniq n) hok
    have hle : (sfRun fnRes (sfInit (α × ε) n) σ).fnCount ≤ 1 := by
      rw [hwf.count_eq]
      exact le_trans (List.countP_le_length _) hu.calls_le
    obtain ⟨j, hj, hrj⟩ := hwf.ret_res u r hr
    obtain ⟨j', hj', hrj'⟩ := hwf.ret_res u' r' hr'
    have : j = 0 := by omega
    subst this
    have : j' = 0 := by omega
    subst this
    rw [hrj, hrj']

/-- Witness for C7 at a concrete schedule. -/
theorem singleflight_error_passthrough_witness :
    (∃ j : Nat, j < (sfRun exFn (sfInit (Nat × Nat) 2) [0, 1, 0, 0, 1, 0, 0]).fnCount ∧
      ((100 : Nat), (0 : Nat)) = exFn j) ∧
    (((100 : Nat), (0 : Nat)) : Nat × Nat) = ((100, 0) : Nat × Nat) :=
  ⟨(singleflight_error_passthrough Nat Nat exFn 2 [0, 1, 0, 0, 1, 0, 0]).1
      0 100 0 (by decide),
   (singleflight_error_passthrough Nat Nat exFn 2 [0, 1, 0, 0, 1, 0, 0]).2
      (by decide) 0 1 (100, 0) (100, 0) (by decide) (by decide)⟩

/-- Counterexample for C3: the code calls `wg.Done()` (releasing the
completion barrier) *before* `delete(g.m, key)`.  After the runner's
enter/execute/`Done` steps (schedule `[0, 0, 0]`), the call record has
`done = true` — the barrier is released — yet the record is still in the
map (`mEntry = some 0`), contradicting "removed … before the completion
barrier is released".  Moreover a second caller arriving at that point
joins the completed call instead of starting a fresh invocation: after the
full schedule, the wrapped function has still run only once and the late
caller returned the first execution's pair, contradicting "a new call for
the same key arriving after completion always starts a fresh
invocation". -/
theorem singleflight_removal_before_release_cex :
    ((sfRun exFn (sfInit (Nat × Nat) 2) [0, 0, 0]).calls[0]?
        = some ⟨true, some (100, 0)⟩ ∧
     (sfRun exFn (sfInit (Nat × Nat) 2) [0, 0, 0]).mEntry = some 0) ∧
    ((sfRun exFn (sfInit (Nat × Nat) 2) [0, 0, 0, 1, 1, 0, 0]).fnCount = 1 ∧
     (sfRun exFn (sfInit (Nat × Nat) 2) [0, 0, 0, 1, 1, 0, 0]).threads[1]?
        = some (Phase.ret (100, 0))) := by
  decide

/-- C3 amended: in every reachable state of `Group.Do`, a runner about to
perform the `delete(g.m, key)` step has already released the barrier
(`wg.Done()` precedes the delete), with the result already stored; and a
caller that enters while the record is absent from the map registers a
brand-new `call` record and becomes its executor — so a fresh invocation is
guaranteed only for callers arriving after the removal, not after mere
completion. -/
theorem singleflight_removal_after_release (ρ : Type) (fnRes : Nat → ρ)
    (n : Nat) (σ : List Nat) :
    (∀ (t cid : Nat),
      (sfRun fnRes (sfInit ρ n) σ).threads[t]? = some (Phase.run cid RSub.toDelete) →
      ∃ c : CallRec ρ, (sfRun fnRes (sfInit ρ n) σ).calls[cid]? = some c ∧
        c.done = true ∧ c.res.isSome = true) ∧
    (∀ t : Nat,
      (sfRun fnRes (sfInit ρ n) σ).threads[t]? = some Phase.start →
      (sfRun fnRes (sfInit ρ n) σ).mEntry = none →
      (step fnRes (sfRun fnRes (sfInit ρ n) σ) t).calls
          = (sfRun fnRes (sfInit ρ n) σ).calls ++ [⟨false, none⟩] ∧
      (step fnRes (sfRun fnRes (sfInit ρ n) σ) t).threads[t]?
          = some (Phase.run (sfRun fnRes (sfInit ρ n) σ).calls.length RSub.toExec)) := by
  have hwf : WF fnRes (sfRun fnRes (sfInit ρ n) σ) := wf_run σ (sfInit_wf n)
  constructor
  · intro t cid hth
    obtain ⟨c, hcget, -, -, hdl, -⟩ := hwf.runner_call t cid RSub.toDelete hth
    obtain ⟨hres, hdone, -⟩ := hdl rfl
    exact ⟨c, hcget, hdone, hres⟩
  · intro t hth hm
    constructor
    · simp [step, hth, hm]
    · have hTh : (step fnRes (sfRun fnRes (sfInit ρ n) σ) t).threads
          = setAt t (Phase.run (sfRun fnRes (sfInit ρ n) σ).calls.length RSub.toExec)
              (sfRun fnRes (sfInit ρ n) σ).threads := by
        simp [step, hth, hm]
      rw [hTh]
      exact getElem?_setAt_self _ hth

/-- Witness for the amended C3 at a concrete reachable state. -/
theorem singleflight_removal_after_release_witness :
    ∃ c : CallRec (Nat × Nat),
      (sfRun exFn (sfInit (Nat × Nat) 2) [0, 0, 0]).calls[0]? = some c ∧
      c.done = true ∧ c.res.isSome = true :=
  (singleflight_removal_after_release (Nat × Nat) exFn 2 [0, 0, 0]).1 0 0 (by decide)

end SF

namespace SF

/-- C6: two sequential, non-overlapping calls to `Group.Do` with the same
key each invoke the wrapped function.  Formalised with two callers: if the
first caller runs alone (a schedule consisting only of thread 0) and has
returned, then its result is the first execution's result, and running the
second caller to completion afterwards performs a brand-new execution: the
function has now run twice and the second caller returns the second
execution's result `fnRes 1`, not the cached `fnRes 0`. -/
theorem singleflight_sequential_fresh (ρ : Type) (fnRes : Nat → ρ)
    (σ : List Nat) (hσ : ∀ x ∈ σ, x = 0) (r : ρ)
    (hret : (sfRun fnRes (sfInit ρ 2) σ).threads[0]? = some (Phase.ret r)) :
    r = fnRes 0 ∧
    (sfRun fnRes (sfInit ρ 2) (σ ++ [1, 1, 1, 1, 1])).fnCount = 2 ∧
    (sfRun fnRes (sfInit ρ 2) (σ ++ [1, 1, 1, 1, 1])).threads[1]?
      = some (Phase.ret (fnRes 1)) := by
  have hsolo : SoloInv fnRes (sfRun fnRes (sfInit ρ 2) σ) :=
    solo_run hσ (Or.inl rfl)
  have hfold : sfRun fnRes (sfInit ρ 2) (σ ++ [1, 1, 1, 1, 1])
      = sfRun fnRes (sfRun fnRes (sfInit ρ 2) σ) [1, 1, 1, 1, 1] := by
    rw [sfRun, sfRun, sfRun, List.foldl_append]
  rw [hfold]
  rcases hsolo with h | h | h | h | h | h <;> rw [h] at hret ⊢
  · exfalso
    simp [sfInit] at hret
  · exfalso
    simp at hret
  · exfalso
    simp at hret
  · exfalso
    simp at hret
  · exfalso
    simp at hret
  · have hr0 : r = fnRes 0 := by
      simp only [List.getElem?_cons_zero, Option.some.injEq, Phase.ret.injEq] at hret
      exact hret.symm
    refine ⟨hr0, ?_, ?_⟩ <;>
      simp [sfRun, step, setAt, modifyAt]

/-- Witness for C6: thread 0 completes solo, then thread 1 runs. -/
theorem singleflight_sequential_fresh_witness :
    (100, 0) = exFn 0 ∧
    (sfRun exFn (sfInit (Nat × Nat) 2) ([0, 0, 0, 0, 0] ++ [1, 1, 1, 1, 1])).fnCount = 2 ∧
    (sfRun exFn (sfInit (Nat × Nat) 2) ([0, 0, 0, 0, 0] ++ [1, 1, 1, 1, 1])).threads[1]?
      = some (Phase.ret (exFn 1)) :=
  singleflight_sequential_fresh (Nat × Nat) exFn [0, 0, 0, 0, 0]
    (by decide) (100, 0) (by decide)

end SF

namespace LRU

/-- C2: after every sequence of operations on a cache built with `New`, the
key-to-element lookup map and the recency list are mutually consistent
(`Consistent`: every key in the map references exactly one live element
whose key it is, every element's key is in the map, and map size equals
list length), and the front-to-back key order of the list is exactly the
descending recency order prescribed by the specification-side replay
`specRecency` (front = most recently accessed by `Add` or `Get`). -/
theorem cache_consistency_and_recency (K V : Type) [DecidableEq K] (max : Nat)
    (ops : List (COp K V)) :
    Consistent (execOps (New K V max) ops) ∧
    (execOps (New K V max) ops).ll.map Entry.key = specRecency (V := V) max [] ops := by
  obtain ⟨h1, h2, h3⟩ := execOps_spec (consistent_New max) ops
  exact ⟨h1, h3⟩

/-- C4: with capacity 2 and the eviction callback configured,
`Add "a" 1; Add "b" 2; Add "c" 3` leaves exactly `{b, c}` present
(`Get "a"` misses, `Get "b"` and `Get "c"` hit with their values,
`Len = 2`), the first two `Add`s fire no callback, and the third fires the
callback exactly once, with key `"a"` and value `1`. -/
theorem cache_capacity_eviction_scenario :
    (Get (Add (Add (Add { New String Int 2 with onEvicted := true } "a" 1).1 "b" 2).1 "c" 3).1 "a").2 = none ∧
    (Get (Add (Add (Add { New String Int 2 with onEvicted := true } "a" 1).1 "b" 2).1 "c" 3).1 "b").2 = some 2 ∧
    (Get (Add (Add (Add { New String Int 2 with onEvicted := true } "a" 1).1 "b" 2).1 "c" 3).1 "c").2 = some 3 ∧
    Len (Add (Add (Add { New String Int 2 with onEvicted := true } "a" 1).1 "b" 2).1 "c" 3).1 = 2 ∧
    (Add { New String Int 2 with onEvicted := true } "a" 1).2 = [] ∧
    (Add (Add { New String Int 2 with onEvicted := true } "a" 1).1 "b" 2).2 = [] ∧
    (Add (Add (Add { New String Int 2 with onEvicted := true } "a" 1).1 "b" 2).1 "c" 3).2 = [("a", 1)] := by
  decide

/-- C5: with capacity 2, `Add "a" 1; Add "b" 2; Get "a"; Add "c" 3` evicts
`"b"` (the least recently used, because the `Get` refreshed `"a"` to
most-recent), leaving exactly `{a, c}` present. -/
theorem cache_recency_promotion_scenario :
    (Add (Get (Add (Add { New String Int 2 with onEvicted := true } "a" 1).1 "b" 2).1 "a").1 "c" 3).2 = [("b", 2)] ∧
    (Get (Add (Get (Add (Add { New String Int 2 with onEvicted := true } "a" 1).1 "b" 2).1 "a").1 "c" 3).1 "a").2 = some 1 ∧
    (Get (Add (Get (Add (Add { New String Int 2 with onEvicted := true } "a" 1).1 "b" 2).1 "a").1 "c" 3).1 "b").2 = none ∧
    (Get (Add (Get (Add (Add { New String Int 2 with onEvicted := true } "a" 1).1 "b" 2).1 "a").1 "c" 3).1 "c").2 = some 3 ∧
    Len (Add (Get (Add (Add { New String Int 2 with onEvicted := true } "a" 1).1 "b" 2).1 "a").1 "c" 3).1 = 2 := by
  decide

/-- C8: with capacity 0 (a cache built by `New 0`, so `init = true` and
`maxEntries = 0`), `Add` never triggers an automatic capacity eviction:
no `Add` fires the eviction callback, and an `Add` of a new key always
increases `Len` by one. -/
theorem cache_unbounded_no_eviction (K V : Type) [DecidableEq K] (c : Cache K V)
    (k : K) (v : V) (hmax : c.maxEntries = 0) (hinit : c.init = true) :
    (Add c k v).2 = [] ∧
    (lookupKey k c.cache = none → Len (Add c k v).1 = Len c + 1) := by
  rw [Add]
  simp only [hinit, if_true]
  cases hlk : lookupKey k c.cache with
  | some id => exact ⟨rfl, fun h => by cases h⟩
  | none =>
      have hcond' : ¬(({ c with ll := ⟨c.nextId, k, v⟩ :: c.ll, cache := insertKey k c.nextId c.cache, nextId := c.nextId + 1, init := true } : Cache K V).maxEntries ≠ 0 ∧ (({ c with ll := ⟨c.nextId, k, v⟩ :: c.ll, cache := insertKey k c.nextId c.cache, nextId := c.nextId + 1, init := true } : Cache K V).ll).length > ({ c with ll := ⟨c.nextId, k, v⟩ :: c.ll, cache := insertKey k c.nextId c.cache, nextId := c.nextId + 1, init := true } : Cache K V).maxEntries) := by
        simp [hmax]
      rw [if_neg hcond']
      refine ⟨rfl, fun _ => ?_⟩
      simp [Len, hinit]

/-- Witness for C8 on a concrete capacity-0 cache holding two entries. -/
theorem cache_unbounded_no_eviction_witness :
    (Add (Add (Add { New Nat Nat 0 with onEvicted := true } 1 10).1 2 20).1 3 30).2 = [] ∧
    (lookupKey 3 (Add (Add { New Nat Nat 0 with onEvicted := true } 1 10).1 2 20).1.cache = none →
      Len (Add (Add (Add { New Nat Nat 0 with onEvicted := true } 1 10).1 2 20).1 3 30).1
        = Len (Add (Add { New Nat Nat 0 with onEvicted := true } 1 10).1 2 20).1 + 1) :=
  cache_unbounded_no_eviction Nat Nat
    (Add (Add { New Nat Nat 0 with onEvicted := true } 1 10).1 2 20).1 3 30
    (by decide) (by decide)

end LRU

namespace LRU

/-- C9: `Remove` on an absent key leaves the cache completely unchanged and
fires no callback; `Remove` on a present key (in a consistent cache)
removes exactly that entry — it behaves as `removeElement` on the entry the
map references, whose key is the requested key — fires the callback (when
configured) with the removed key and its stored value, decrements the entry
count by one, and afterwards the key is no longer in the map. -/
theorem cache_remove_semantics (K V : Type) [DecidableEq K] (c : Cache K V)
    (k : K) (hc : Consistent c) :
    (lookupKey k c.cache = none → Remove c k = (c, [])) ∧
    (∀ (id : Nat) (e : Entry K V), lookupKey k c.cache = some id →
      findId id c.ll = some e →
      Remove c k = removeElement c e ∧ e.key = k ∧
      (Remove c k).2 = (if c.onEvicted then [(k, e.value)] else []) ∧
      Len (Remove c k).1 + 1 = Len c ∧
      lookupKey k (Remove c k).1.cache = none) := by
  constructor
  · intro hlk
    by_cases hin : c.init = false
    · rw [Remove, if_pos hin]
    · rw [Remove, if_neg hin, hlk]
  · intro id e hlk hfind
    have hin : ¬(c.init = false) := by
      intro hin
      rw [(hc.1 hin).2] at hlk
      cases hlk
    have hrw : Remove c k = removeElement c e := by
      rw [Remove, if_neg hin]
      simp only [hlk, hfind]
    obtain ⟨he, hide⟩ := findId_some hfind
    have hkey : e.key = k := by
      obtain ⟨e', he', hide', hkey'⟩ := hc.2.2.2.2.1 _ (mem_of_lookupKey_some hlk)
      have hid2 : e'.id = e.id := by rw [hide']; exact hide.symm
      have : e' = e := List.inj_on_of_nodup_map hc.2.1 he' he hid2
      rw [← this]
      exact hkey'
    have hfind2 : findId e.id c.ll = some e := by rw [hide]; exact hfind
    refine ⟨hrw, hkey, ?_, ?_, ?_⟩
    · rw [hrw]
      show (if c.onEvicted then [(e.key, e.value)] else []) = _
      rw [hkey]
    · rw [hrw]
      show Len { c with ll := removeId e.id c.ll, cache := eraseKey e.key c.cache } + 1 = Len c
      have hlen := length_removeId hfind2
      simp only [Len, hin, if_neg]
      simp only [Bool.not_eq_false] at hin
      simp [hin, hlen]
    · rw [hrw]
      show lookupKey k (eraseKey e.key c.cache) = none
      rw [hkey]
      exact lookupKey_eq_none_iff.2 (fun p hp => (mem_eraseKey.1 hp).2)

/-- Witness for C9 on a concrete two-entry cache: removing absent key `9`
is a no-op, removing present key `1` fires the callback with `(1, 10)`. -/
theorem cache_remove_semantics_witness :
    (Remove (Add (Add { New Nat Nat 3 with onEvicted := true } 1 10).1 2 20).1 9
      = ((Add (Add { New Nat Nat 3 with onEvicted := true } 1 10).1 2 20).1, [])) ∧
    (Remove (Add (Add { New Nat Nat 3 with onEvicted := true } 1 10).1 2 20).1 1).2
      = [(1, 10)] := by
  have hc : Consistent (Add (Add { New Nat Nat 3 with onEvicted := true } 1 10).1 2 20).1 := by
    refine ⟨?_, ?_, ?_, ?_, ?_, ?_, ?_, ?_⟩ <;> decide
  constructor
  · exact (cache_remove_semantics Nat Nat _ 9 hc).1 (by decide)
  · have h2 := ((cache_remove_semantics Nat Nat _ 1 hc).2 0 ⟨0, 1, 10⟩
      (by decide) (by decide)).2.2.1
    rw [h2]
    decide

/-- C10: all operations are safe on a zero-value `Cache` (nil internal map
and list): `Get` misses and leaves the cache unchanged, `Remove` and
`RemoveOldest` are no-ops firing no callback, `Len` is 0, and `Add` lazily
initialises the structures and inserts the entry (no eviction, count 1, the
entry retrievable). -/
theorem cache_zero_value_safe (K V : Type) [DecidableEq K] (k : K) (v : V) :
    Get (zeroCache K V) k = (zeroCache K V, none) ∧
    Remove (zeroCache K V) k = (zeroCache K V, []) ∧
    RemoveOldest (zeroCache K V) = (zeroCache K V, []) ∧
    Len (zeroCache K V) = 0 ∧
    (Add (zeroCache K V) k v).1.init = true ∧
    (Add (zeroCache K V) k v).2 = [] ∧
    (Get (Add (zeroCache K V) k v).1 k).2 = some v ∧
    Len (Add (zeroCache K V) k v).1 = 1 := by
  refine ⟨?_, ?_, ?_, ?_, ?_, ?_, ?_, ?_⟩ <;>
    simp [Get, Remove, RemoveOldest, Len, Add, zeroCache, lookupKey, findId,
      moveToFront, insertKey, eraseKey, llBack, removeId]

end LRU
